import Mathlib

/-!
Shallow embedding of the single-file limit order book (`src/orderbook.cpp`)
and proofs about its operations.

Representation choices, all justified against the source:

* `Price`, `Quantity` are `uint32` and `OrderId` is `uint64` in the source;
  they are modelled as `Nat`.  Every arithmetic step of the engine stays in
  range (`Order::Fill` subtracts a checked amount and `tradeQuantity` is a
  minimum of two in-range values), except the snapshot aggregate in
  `getLevels`, whose running sum is stored back into a `Quantity` each step
  and therefore wraps; that one spot carries an explicit `% 2^32`.
* `std::map<Price, OrderPointers>` (asks ascending, bids descending via
  `std::greater`) is modelled as an association list sorted by the map's
  comparator, so `begin()` is the head of the list.  The sortedness and the
  map invariant that no level has an empty queue are stated separately as
  `wfB` and assumed only where a proof needs them.
* `orders_` (the order index) is kept in sync with the two sides by every
  member function of `OrderBook`: `addTrade` inserts into both, the match
  loop erases fully filled heads from both, `cancelOrder` erases from both.
  It is therefore represented by the orders reachable through the queues
  (`bookOrders`, `findOrder`), and `getSize` by their count.
* `Order::Fill` throws on overfill; that exception is modelled as `none`
  and proven unreachable inside the matching loop (`matchStep_ne_overfill`).
-/

namespace Orderbook

/-- Source `enum class OrderType`. -/
inductive OrderType where
  | GoodTillCanceled
  | FillAndKill
deriving DecidableEq, Repr

/-- Source `enum class Side`. -/
inductive Side where
  | Buy
  | Sell
deriving DecidableEq, Repr

/-- Source `class Order`: id, side, limit price, initial and remaining
quantity.  `getFilledQuantity` is `initQuantity - remainingQuantity` and is
not needed by any claim. -/
structure Order where
  orderType : OrderType
  orderId : Nat
  side : Side
  price : Nat
  initQuantity : Nat
  remainingQuantity : Nat
deriving DecidableEq, Repr

/-- Source `Order::isFilled`: true iff nothing remains. -/
def Order.isFilled (o : Order) : Bool :=
  o.remainingQuantity == 0

/-- Source `Order::Fill`: throws `std::logic_error` when asked to fill more
than the remaining quantity (modelled as `none`), otherwise subtracts. -/
def Order.fill (o : Order) (quantity : Nat) : Option Order :=
  if quantity > o.remainingQuantity then none
  else some ⟨o.orderType, o.orderId, o.side, o.price, o.initQuantity,
             o.remainingQuantity - quantity⟩

/-- Source `struct TradeInfo`: one leg of a trade. -/
structure TradeInfo where
  orderId : Nat
  price : Nat
  quantity : Nat
deriving DecidableEq, Repr

/-- Source `class Trade`: the bid leg and the ask leg of one match. -/
structure Trade where
  bid : TradeInfo
  ask : TradeInfo
deriving DecidableEq, Repr

/-- One side of the book: association list from price to that price level's
FIFO queue (`std::list<OrderPointer>`), sorted by the side's comparator so
that the head is `begin()`, the best price. -/
abbrev SideLevels := List (Nat × List Order)

/-- Source `class OrderBook` state: the two price-indexed sides.  The order
index `orders_` is kept in sync with the queues by every operation and is
recovered by `bookOrders` / `findOrder` / `orderCount`. -/
structure BookState where
  bids : SideLevels
  asks : SideLevels
deriving DecidableEq, Repr

/-- All orders filed on one side, best level first, queue order inside a
level. -/
def allOrders (levels : SideLevels) : List Order :=
  levels.flatMap Prod.snd

/-- All orders in the book (the contents of `orders_`, which stays in sync
with the queues). -/
def bookOrders (s : BookState) : List Order :=
  allOrders s.bids ++ allOrders s.asks

/-- Look an id up in the order index (`orders_.at` / `orders_.contains`).
Ids in the book are unique (duplicates are rejected on submission), so
searching the queues finds the unique match when there is one. -/
def BookState.findOrder (s : BookState) (orderId : Nat) : Option Order :=
  (bookOrders s).find? (fun o => o.orderId == orderId)

/-- Source `orders_.contains(id)`. -/
def BookState.contains (s : BookState) (orderId : Nat) : Bool :=
  (s.findOrder orderId).isSome

/-- Number of live orders: the order index cardinality. -/
def BookState.orderCount (s : BookState) : Nat :=
  (bookOrders s).length

/-- Source `OrderBook::getSize`. -/
def BookState.getSize (s : BookState) : Nat :=
  s.orderCount

/-- Source `OrderBook::canMatch`: a `Buy` at `price` can match iff the ask
side is non-empty and `price >= bestAsk`; a `Sell` iff the bid side is
non-empty and `price <= bestBid`. -/
def BookState.canMatch (s : BookState) (side : Side) (price : Nat) : Bool :=
  match side with
  | .Buy =>
    match s.asks with
    | [] => false
    | (bestAsk, _) :: _ => decide (price ≥ bestAsk)
  | .Sell =>
    match s.bids with
    | [] => false
    | (bestBid, _) :: _ => decide (price ≤ bestBid)

/-- The result of one fill attempt of the matching loop. -/
inductive StepResult where
  | done
  | step (tr : Trade) (s' : BookState)
  | overfill
deriving DecidableEq, Repr

/-- One fill of the matching loop (`OrderBook::MatchOrders`, the nested
loops of lines 321–363).  `done` when a side is empty, the best prices do
not cross, or a best-level queue is empty (the inner `while` guard);
`overfill` is the `Order::Fill` exception path, proven unreachable in
`matchStep_ne_overfill`.  A fill takes the two best queue heads, trades the
minimum of their remaining quantities, pops whichever becomes fully filled,
erases a level whose queue empties, and emits one `Trade`.  Re-checking
everything after a single fill is equivalent to the source's inner loop
because the best prices cannot change while both best queues stay
non-empty.  The source pushes the trade record after popping the heads
(reading through the just-invalidated references); the record is built here
from the values those reads are intended to produce, the id and limit price
of the two orders just filled. -/
def matchStep : BookState → StepResult
  | ⟨[], _⟩ => .done
  | ⟨_ :: _, []⟩ => .done
  | ⟨(bidPrice, bq) :: bidRest, (askPrice, aq) :: askRest⟩ =>
    if bidPrice < askPrice then .done
    else
      match bq, aq with
      | [], _ => .done
      | _ :: _, [] => .done
      | bid :: bqTail, ask :: aqTail =>
        let tradeQuantity := min bid.remainingQuantity ask.remainingQuantity
        match bid.fill tradeQuantity, ask.fill tradeQuantity with
        | some bid', some ask' =>
          let bq' := if bid'.isFilled then bqTail else bid' :: bqTail
          let aq' := if ask'.isFilled then aqTail else ask' :: aqTail
          .step ⟨⟨bid.orderId, bid.price, tradeQuantity⟩,
                 ⟨ask.orderId, ask.price, tradeQuantity⟩⟩
                ⟨if bq'.isEmpty then bidRest else (bidPrice, bq') :: bidRest,
                 if aq'.isEmpty then askRest else (askPrice, aq') :: askRest⟩
        | _, _ => .overfill

/-- The matching loop with explicit fuel.  `none` models either the
`Order::Fill` exception or fuel running out; `matchLoopF_isSome` proves
that `orderCount s + 1` fuel always suffices because every fill removes at
least one order from the book. -/
def matchLoopF : Nat → BookState → Option (List Trade × BookState)
  | 0, _ => none
  | fuel + 1, s =>
    match matchStep s with
    | .done => some ([], s)
    | .overfill => none
    | .step tr s' =>
      match matchLoopF fuel s' with
      | some (trs, s'') => some (tr :: trs, s'')
      | none => none

/-- Source `OrderBook::MatchOrders`: run the loop to completion.  The
fallback branch is unreachable (`matchLoopF_isSome`), mirroring that
`Order::Fill` never throws from inside the loop.  The post-loop inspection
of a stranded `FillAndKill` head (source lines 367–381) mutates nothing:
its cancellation is an empty stub (`// Cancel order`), so it is the
identity here. -/
def BookState.matchOrders (s : BookState) : List Trade × BookState :=
  match matchLoopF (s.orderCount + 1) s with
  | some r => r
  | none => ([], s)

/-- Key comparator of `bids_` (`std::greater<Price>`): higher price first. -/
def bidLt (a b : Nat) : Bool :=
  decide (b < a)

/-- Key comparator of `asks_` (default `std::less`): lower price first. -/
def askLt (a b : Nat) : Bool :=
  decide (a < b)

/-- Filing an order on one side, as `side_[price].push_back(order)` does on
a `std::map`: find the level for `price`, creating it at its sorted
position if absent, and append the order at the tail of its queue.  `lt`
is the map's key comparator. -/
def insertOrderAt (lt : Nat → Nat → Bool) (price : Nat) (o : Order) :
    SideLevels → SideLevels
  | [] => [(price, [o])]
  | (p, q) :: rest =>
    if lt price p then (price, [o]) :: (p, q) :: rest
    else if price = p then (p, q ++ [o]) :: rest
    else (p, q) :: insertOrderAt lt price o rest

/-- Source `OrderBook::addTrade` (submission): reject a duplicate id as a
no-op, reject a `FillAndKill` order that cannot match as a no-op, otherwise
file the order at the tail of its price level, register it in the order
index, and run the matching loop. -/
def BookState.addTrade (s : BookState) (o : Order) : List Trade × BookState :=
  if s.contains o.orderId then ([], s)
  else if o.orderType = .FillAndKill ∧ s.canMatch o.side o.price = false then ([], s)
  else
    BookState.matchOrders
      (match o.side with
       | .Buy => ⟨insertOrderAt bidLt o.price o s.bids, s.asks⟩
       | .Sell => ⟨s.bids, insertOrderAt askLt o.price o s.asks⟩)

/-- Erase from a queue the element the stored iterator points at: the entry
carrying the canceled id (ids are unique in the book). -/
def eraseOrder (orderId : Nat) : List Order → List Order
  | [] => []
  | o :: rest => if o.orderId == orderId then rest else o :: eraseOrder orderId rest

/-- Remove an order from the level at `price`, erasing the level when its
queue empties, as `cancelOrder` does on one side. -/
def removeFromLevels (price orderId : Nat) : SideLevels → SideLevels
  | [] => []
  | (p, q) :: rest =>
    if p = price then
      (if (eraseOrder orderId q).isEmpty then rest
       else (p, eraseOrder orderId q) :: rest)
    else (p, q) :: removeFromLevels price orderId rest

/-- Source `OrderBook::cancelOrder`: no-op on an unknown id; otherwise look
the descriptor up, erase the order from its price level's queue, drop the
level if the queue emptied, and drop the id from the order index.  It
returns no trades (`void` in the source).  (The source reads the order's
price and side through a reference into the just-erased index entry; the
values read are the canceled order's own fields, used as such here.) -/
def BookState.cancelOrder (s : BookState) (orderId : Nat) : BookState :=
  match s.findOrder orderId with
  | none => s
  | some o =>
    match o.side with
    | .Buy => ⟨removeFromLevels o.price orderId s.bids, s.asks⟩
    | .Sell => ⟨s.bids, removeFromLevels o.price orderId s.asks⟩

/-- Source `class ModOrder`: requested replacement values for an order. -/
structure ModOrder where
  orderId : Nat
  price : Nat
  side : Side
  quantity : Nat
deriving DecidableEq, Repr

/-- Source `ModOrder::makeOrderPointer`: a fresh order with the requested
values and the given time-in-force kind. -/
def ModOrder.makeOrderPointer (m : ModOrder) (orderType : OrderType) : Order :=
  ⟨orderType, m.orderId, m.side, m.price, m.quantity, m.quantity⟩

/-- Source `OrderBook::ModifyOrder`: no-op on an unknown id; otherwise
cancel the existing order and submit a fresh one carrying the new
price/side/quantity and the original order's time-in-force kind. -/
def BookState.modifyOrder (s : BookState) (m : ModOrder) : List Trade × BookState :=
  match s.findOrder m.orderId with
  | none => ([], s)
  | some o => (s.cancelOrder m.orderId).addTrade (m.makeOrderPointer o.orderType)

/-- Source `struct Level`: a price and the aggregate quantity shown for it. -/
structure Level where
  price : Nat
  quantity : Nat
deriving DecidableEq, Repr

/-- Source `class OrderbookLevels`: the two snapshot sides. -/
structure OrderbookLevels where
  bids : List Level
  asks : List Level
deriving DecidableEq, Repr

/-- The `std::accumulate` of `getLevels`: sums the remaining quantities of a
queue.  The running sum is stored back into a `Quantity` (uint32) on each
step, hence the explicit wraparound. -/
def levelQuantity (q : List Order) : Nat :=
  q.foldl (fun runningSum o => (runningSum + o.remainingQuantity) % 4294967296) 0

/-- Source `OrderBook::getLevels`: a read-only (`const`) pass over the two
sides, producing one `(price, aggregate remaining quantity)` entry per
level, in each side's own order (best first). -/
def BookState.getLevels (s : BookState) : OrderbookLevels :=
  ⟨s.bids.map (fun lv => ⟨lv.1, levelQuantity lv.2⟩),
   s.asks.map (fun lv => ⟨lv.1, levelQuantity lv.2⟩)⟩

/-- Keys strictly sorted by the comparator `lt`: the `std::map` ordering of
one side. -/
def sortedKeysB (lt : Nat → Nat → Bool) : SideLevels → Bool
  | [] => true
  | [_] => true
  | a :: b :: rest => lt a.1 b.1 && sortedKeysB lt (b :: rest)

/-- Structural invariants of the book that the source maintains: each side
is sorted by its map comparator and no level has an empty queue (an emptied
level is erased on the spot). -/
def wfB (s : BookState) : Bool :=
  sortedKeysB bidLt s.bids && sortedKeysB askLt s.asks &&
  s.bids.all (fun lv => !lv.2.isEmpty) && s.asks.all (fun lv => !lv.2.isEmpty)

/-- The book does not cross: one side is empty or `bestBid < bestAsk`.
Every state left behind by the matching loop satisfies this. -/
def uncrossedB (s : BookState) : Bool :=
  match s.bids, s.asks with
  | [], _ => true
  | _ :: _, [] => true
  | (bidPrice, _) :: _, (askPrice, _) :: _ => decide (bidPrice < askPrice)

/-- Every resting order has positive remaining quantity; maintained by the
engine when every submitted quantity is positive (spec §6: quantity is a
positive integer). -/
def posRemB (s : BookState) : Bool :=
  (bookOrders s).all (fun o => decide (0 < o.remainingQuantity))

/-- Order ids in the book are pairwise distinct; maintained by the
duplicate-id rejection on submission. -/
abbrev UniqueIds (s : BookState) : Prop :=
  ((bookOrders s).map Order.orderId).Nodup

/-- Every order is filed on the side and at the price its own fields name;
the source guarantees this by construction of the descriptors. -/
abbrev Located (s : BookState) : Prop :=
  (∀ lv ∈ s.bids, ∀ o ∈ lv.2, o.side = Side.Buy ∧ o.price = lv.1) ∧
  (∀ lv ∈ s.asks, ∀ o ∈ lv.2, o.side = Side.Sell ∧ o.price = lv.1)

/-- The queue of the level at `price`, `[]` when the level is absent. -/
def levelOf (levels : SideLevels) (price : Nat) : List Order :=
  match levels.find? (fun lv => lv.1 == price) with
  | some lv => lv.2
  | none => []

/-- Whether a side holds a level at `price`. -/
def hasLevel (levels : SideLevels) (price : Nat) : Bool :=
  levels.any (fun lv => lv.1 == price)

/-- The levels of one side of the book. -/
def BookState.sideOf (s : BookState) (side : Side) : SideLevels :=
  match side with
  | .Buy => s.bids
  | .Sell => s.asks

/-- Sum of the remaining quantities of a queue, as an unbounded natural. -/
def queueRemaining (q : List Order) : Nat :=
  (q.map Order.remainingQuantity).sum

/-- Sum of the remaining quantities over a whole side. -/
def sideRemaining (levels : SideLevels) : Nat :=
  (levels.map (fun lv => queueRemaining lv.2)).sum

/-- Sum of the remaining quantities over the whole book. -/
def BookState.totalRemaining (s : BookState) : Nat :=
  sideRemaining s.bids + sideRemaining s.asks

/-- Sum of the (bid-leg) quantities of a trade list; the two legs of every
emitted trade carry the same quantity. -/
def tradesQuantity (trs : List Trade) : Nat :=
  (trs.map (fun tr => tr.bid.quantity)).sum

/-- The update applied to one side's best level when its head order is
filled by `tq`: pop the head if fully filled, and drop the level if its
queue empties (exactly the branch structure inside `matchStep`). -/
def fillSide (p : Nat) (o : Order) (qTail : List Order) (rest : SideLevels)
    (tq : Nat) : SideLevels :=
  let o' : Order := ⟨o.orderType, o.orderId, o.side, o.price, o.initQuantity,
                     o.remainingQuantity - tq⟩
  let q' := if o'.isFilled then qTail else o' :: qTail
  if q'.isEmpty then rest else (p, q') :: rest

/-- Queue `q'` arises from queue `q` with only its head order touched:
either untouched, or the head replaced by the same order (same id, side,
price, type, initial quantity) with its remaining quantity reduced, every
order behind it untouched. -/
def HeadFilled (q q' : List Order) : Prop :=
  q = q' ∨ ∃ o o' t, q = o :: t ∧ q' = o' :: t ∧
    o'.orderType = o.orderType ∧ o'.orderId = o.orderId ∧ o'.side = o.side ∧
    o'.price = o.price ∧ o'.initQuantity = o.initQuantity ∧
    o'.remainingQuantity ≤ o.remainingQuantity

/-- Some fully filled front of `q` has been popped and the next order, if
any, partially filled: the only way the matching loop ever edits a queue. -/
def SuffixFilled (q q' : List Order) : Prop :=
  ∃ pre suf, q = pre ++ suf ∧ HeadFilled suf q'

/-- Modify as the spec words it for a live target: an atomic cancel of the
existing order followed by a fresh submit carrying the modification's
price, side and quantity and the original order's time-in-force kind.
Stated separately from `BookState.modifyOrder` (the source embedding) so
the two can be compared. -/
def modifyByCancelAndResubmit (s : BookState) (m : ModOrder)
    (kind : OrderType) : List Trade × BookState :=
  (s.cancelOrder m.orderId).addTrade (m.makeOrderPointer kind)

/-- The empty book. -/
def bookEmpty : BookState := ⟨[], []⟩

/-- A resting GTC bid, used by the concrete instances below. -/
def oBid1 : Order := ⟨.GoodTillCanceled, 1, .Buy, 10, 1, 1⟩

/-- A resting GTC ask at the bid's price: the book below crosses. -/
def oAsk2 : Order := ⟨.GoodTillCanceled, 2, .Sell, 10, 1, 1⟩

/-- A resting GTC ask above the bid: the book below does not cross. -/
def oAsk3 : Order := ⟨.GoodTillCanceled, 3, .Sell, 12, 2, 2⟩

/-- A book whose best bid meets the best ask: one fill happens. -/
def crossedBook : BookState := ⟨[(10, [oBid1])], [(10, [oAsk2])]⟩

/-- A well-formed uncrossed book: bid 10, ask 12. -/
def restingBook : BookState := ⟨[(10, [oBid1])], [(12, [oAsk3])]⟩

/-- Submitting a GTC sell of 1 at 10 and then a FillAndKill buy of 5 at 10:
the sell is fully filled and the FillAndKill order keeps a remainder of 4.
The source's post-loop eviction is an empty stub, so the remainder rests. -/
def fakBook : BookState :=
  ((bookEmpty.addTrade ⟨.GoodTillCanceled, 1, .Sell, 10, 1, 1⟩).2.addTrade
    ⟨.FillAndKill, 2, .Buy, 10, 5, 5⟩).2

/-- Two GTC bids of `2^31` each at price 15: their true aggregate `2^32`
overflows the uint32 accumulator of `getLevels`. -/
def bigBook : BookState :=
  ((bookEmpty.addTrade ⟨.GoodTillCanceled, 1, .Buy, 15, 2147483648, 2147483648⟩).2.addTrade
    ⟨.GoodTillCanceled, 2, .Buy, 15, 2147483648, 2147483648⟩).2

theorem Order.fill_of_le (o : Order) (q : Nat) (h : q ≤ o.remainingQuantity) :
    o.fill q = some ⟨o.orderType, o.orderId, o.side, o.price, o.initQuantity,
                     o.remainingQuantity - q⟩ := by
  unfold Order.fill
  rw [if_neg (by omega)]

/-- Inversion of a successful fill of the matching loop: the two sides were
non-empty with non-empty best queues, the best prices crossed, the traded
quantity is the minimum of the two heads' remaining quantities, and the new
state pops/fills exactly the heads. -/
theorem matchStep_step_inv {s : BookState} {tr : Trade} {s' : BookState}
    (h : matchStep s = .step tr s') :
    ∃ bp bid bqTail bidRest ap ask aqTail askRest,
      s.bids = (bp, bid :: bqTail) :: bidRest ∧
      s.asks = (ap, ask :: aqTail) :: askRest ∧
      ¬ bp < ap ∧
      tr = ⟨⟨bid.orderId, bid.price, min bid.remainingQuantity ask.remainingQuantity⟩,
            ⟨ask.orderId, ask.price, min bid.remainingQuantity ask.remainingQuantity⟩⟩ ∧
      s' = ⟨fillSide bp bid bqTail bidRest (min bid.remainingQuantity ask.remainingQuantity),
            fillSide ap ask aqTail askRest (min bid.remainingQuantity ask.remainingQuantity)⟩ := by
  rcases s with ⟨bids, asks⟩
  rcases bids with _ | ⟨⟨bp, bq⟩, bidRest⟩
  · simp [matchStep] at h
  rcases asks with _ | ⟨⟨ap, aq⟩, askRest⟩
  · simp [matchStep] at h
  simp only [matchStep] at h
  by_cases hlt : bp < ap
  · rw [if_pos hlt] at h; cases h
  rw [if_neg hlt] at h
  rcases bq with _ | ⟨bid, bqTail⟩
  · cases h
  rcases aq with _ | ⟨ask, aqTail⟩
  · cases h
  have hbf := Order.fill_of_le bid _
    (Nat.min_le_left bid.remainingQuantity ask.remainingQuantity)
  have haf := Order.fill_of_le ask _
    (Nat.min_le_right bid.remainingQuantity ask.remainingQuantity)
  simp only [hbf, haf, StepResult.step.injEq] at h
  refine ⟨bp, bid, bqTail, bidRest, ap, ask, aqTail, askRest, rfl, rfl, hlt, h.1.symm, ?_⟩
  rw [← h.2]
  rfl

/-- The matching loop never requests an overfill: the traded quantity is
the minimum of the two remaining quantities, so `Order::Fill` never throws
inside `MatchOrders`. -/
theorem matchStep_ne_overfill (s : BookState) : matchStep s ≠ .overfill := by
  rcases s with ⟨bids, asks⟩
  rcases bids with _ | ⟨⟨bp, bq⟩, bidRest⟩
  · simp [matchStep]
  rcases asks with _ | ⟨⟨ap, aq⟩, askRest⟩
  · simp [matchStep]
  simp only [matchStep]
  by_cases hlt : bp < ap
  · rw [if_pos hlt]; simp
  rw [if_neg hlt]
  rcases bq with _ | ⟨bid, bqTail⟩
  · simp
  rcases aq with _ | ⟨ask, aqTail⟩
  · simp
  have hbf := Order.fill_of_le bid _
    (Nat.min_le_left bid.remainingQuantity ask.remainingQuantity)
  have haf := Order.fill_of_le ask _
    (Nat.min_le_right bid.remainingQuantity ask.remainingQuantity)
  simp [hbf, haf]

theorem allOrders_nil : allOrders [] = [] := rfl

theorem allOrders_cons (p : Nat) (q : List Order) (rest : SideLevels) :
    allOrders ((p, q) :: rest) = q ++ allOrders rest := by
  simp [allOrders]

theorem allOrders_fillSide (p : Nat) (o : Order) (qTail : List Order)
    (rest : SideLevels) (tq : Nat) :
    allOrders (fillSide p o qTail rest tq) =
      (if o.remainingQuantity - tq = 0 then qTail
       else (⟨o.orderType, o.orderId, o.side, o.price, o.initQuantity,
              o.remainingQuantity - tq⟩ : Order) :: qTail) ++ allOrders rest := by
  unfold fillSide
  by_cases h : o.remainingQuantity - tq = 0
  · simp only [Order.isFilled, h, beq_self_eq_true, if_true, if_pos]
    rcases qTail with _ | ⟨x, xs⟩
    · simp [allOrders]
    · simp [allOrders_cons, h]
  · have : (⟨o.orderType, o.orderId, o.side, o.price, o.initQuantity,
             o.remainingQuantity - tq⟩ : Order).isFilled = false := by
      simp [Order.isFilled, h]
    simp [this, h, allOrders_cons]

/-- Every fill removes at least one order from the book: the traded
quantity equals the smaller remaining quantity, so that order's head is
popped. -/
theorem matchStep_count {s : BookState} {tr : Trade} {s' : BookState}
    (h : matchStep s = .step tr s') : s'.orderCount < s.orderCount := by
  obtain ⟨bp, bid, bqTail, bidRest, ap, ask, aqTail, askRest,
    hb, ha, _, _, hs'⟩ := matchStep_step_inv h
  have hmin : min bid.remainingQuantity ask.remainingQuantity = bid.remainingQuantity ∨
      min bid.remainingQuantity ask.remainingQuantity = ask.remainingQuantity := by
    rcases Nat.le_total bid.remainingQuantity ask.remainingQuantity with hle | hle
    · exact Or.inl (Nat.min_eq_left hle)
    · exact Or.inr (Nat.min_eq_right hle)
  have h1 := Nat.min_le_left bid.remainingQuantity ask.remainingQuantity
  have h2 := Nat.min_le_right bid.remainingQuantity ask.remainingQuantity
  subst hs'
  simp only [BookState.orderCount, bookOrders, hb, ha, allOrders_cons,
    allOrders_fillSide, List.length_append, List.length_cons]
  by_cases hbf : bid.remainingQuantity - min bid.remainingQuantity ask.remainingQuantity = 0 <;>
    by_cases haf : ask.remainingQuantity - min bid.remainingQuantity ask.remainingQuantity = 0 <;>
      simp [hbf, haf] <;> omega

/-- Fuel `orderCount s + 1` always suffices for the matching loop: it
terminates without an overfill after at most `orderCount s` fills. -/
theorem matchLoopF_isSome :
    ∀ (fuel : Nat) (s : BookState), s.orderCount < fuel →
      (matchLoopF fuel s).isSome = true := by
  intro fuel
  induction fuel with
  | zero => exact fun s h => absurd h (Nat.not_lt_zero _)
  | succ fuel ih =>
    intro s _
    simp only [matchLoopF]
    cases hs : matchStep s with
    | done => simp
    | overfill => exact absurd hs (matchStep_ne_overfill s)
    | step tr s' =>
      have hc := matchStep_count hs
      have hsome := ih s' (by omega)
      cases hm : matchLoopF fuel s' with
      | none => rw [hm] at hsome; simp at hsome
      | some r => cases r; simp [hm]

theorem matchOrders_eq (s : BookState) :
    matchLoopF (s.orderCount + 1) s = some s.matchOrders := by
  have h := matchLoopF_isSome (s.orderCount + 1) s (Nat.lt_succ_self _)
  unfold BookState.matchOrders
  cases hm : matchLoopF (s.orderCount + 1) s with
  | none => rw [hm] at h; simp at h
  | some r => rfl

/-- The matching loop refuses to fill an uncrossed book. -/
theorem matchStep_done_of_uncrossed {s : BookState} (h : uncrossedB s = true) :
    matchStep s = .done := by
  rcases s with ⟨bids, asks⟩
  rcases bids with _ | ⟨⟨bp, bq⟩, bidRest⟩
  · rfl
  rcases asks with _ | ⟨⟨ap, aq⟩, askRest⟩
  · rfl
  have hlt : bp < ap := by simpa [uncrossedB] using h
  simp only [matchStep]
  rw [if_pos hlt]

theorem matchOrders_of_uncrossed {s : BookState} (h : uncrossedB s = true) :
    s.matchOrders = ([], s) := by
  unfold BookState.matchOrders
  simp [matchLoopF, matchStep_done_of_uncrossed h]

theorem sortedKeysB_queue_irrelevant (lt : Nat → Nat → Bool) (p : Nat)
    (q q' : List Order) (rest : SideLevels) :
    sortedKeysB lt ((p, q) :: rest) = sortedKeysB lt ((p, q') :: rest) := by
  cases rest <;> rfl

theorem sortedKeysB_tail (lt : Nat → Nat → Bool) (a : Nat × List Order)
    (rest : SideLevels) (h : sortedKeysB lt (a :: rest) = true) :
    sortedKeysB lt rest = true := by
  cases rest with
  | nil => rfl
  | cons b bs =>
    simp only [sortedKeysB, Bool.and_eq_true] at h
    exact h.2

theorem wfB_iff (s : BookState) :
    wfB s = true ↔
      sortedKeysB bidLt s.bids = true ∧ sortedKeysB askLt s.asks = true ∧
      (∀ lv ∈ s.bids, lv.2 ≠ []) ∧ (∀ lv ∈ s.asks, lv.2 ≠ []) := by
  simp only [wfB, Bool.and_eq_true, List.all_eq_true, Bool.not_eq_true',
    List.isEmpty_eq_false, and_assoc]

theorem sortedKeysB_fillSide (lt : Nat → Nat → Bool) (p : Nat) (o : Order)
    (q0 qTail : List Order) (rest : SideLevels) (tq : Nat)
    (h : sortedKeysB lt ((p, q0) :: rest) = true) :
    sortedKeysB lt (fillSide p o qTail rest tq) = true := by
  simp only [fillSide]
  split
  · split
    · exact sortedKeysB_tail lt (p, q0) rest h
    · rw [← sortedKeysB_queue_irrelevant lt p q0 qTail rest]
      exact h
  · simp only [List.isEmpty_cons, Bool.false_eq_true, if_false]
    rw [← sortedKeysB_queue_irrelevant lt p q0 _ rest]
    exact h

theorem fillSide_queues (p : Nat) (o : Order) (qTail : List Order)
    (rest : SideLevels) (tq : Nat) (h : ∀ lv ∈ rest, lv.2 ≠ []) :
    ∀ lv ∈ fillSide p o qTail rest tq, lv.2 ≠ [] := by
  simp only [fillSide]
  intro lv hlv
  split at hlv
  · split at hlv
    · exact h lv hlv
    · rename_i hq
      rcases List.mem_cons.1 hlv with h1 | h2
      · subst h1
        intro hnil
        change qTail = [] at hnil
        rw [hnil] at hq
        simp at hq
      · exact h lv h2
  · simp only [List.isEmpty_cons, Bool.false_eq_true, if_false] at hlv
    rcases List.mem_cons.1 hlv with h1 | h2
    · subst h1
      simp
    · exact h lv h2

/-- One fill preserves the structural book invariants. -/
theorem matchStep_wf {s : BookState} {tr : Trade} {s' : BookState}
    (hwf : wfB s = true) (h : matchStep s = .step tr s') : wfB s' = true := by
  obtain ⟨bp, bid, bqTail, bidRest, ap, ask, aqTail, askRest,
    hb, ha, _, _, hs'⟩ := matchStep_step_inv h
  rw [wfB_iff] at hwf ⊢
  obtain ⟨hs1, hs2, hq1, hq2⟩ := hwf
  rw [hb] at hs1 hq1
  rw [ha] at hs2 hq2
  subst hs'
  exact ⟨sortedKeysB_fillSide _ _ _ _ _ _ _ hs1,
         sortedKeysB_fillSide _ _ _ _ _ _ _ hs2,
         fillSide_queues _ _ _ _ _ (fun lv hlv => hq1 lv (List.mem_cons_of_mem _ hlv)),
         fillSide_queues _ _ _ _ _ (fun lv hlv => hq2 lv (List.mem_cons_of_mem _ hlv))⟩

/-- Under the map invariants, the loop stops only on an uncrossed book. -/
theorem uncrossed_of_done {s : BookState} (hwf : wfB s = true)
    (h : matchStep s = .done) : uncrossedB s = true := by
  rcases s with ⟨bids, asks⟩
  rcases bids with _ | ⟨⟨bp, bq⟩, bidRest⟩
  · rfl
  rcases asks with _ | ⟨⟨ap, aq⟩, askRest⟩
  · rfl
  rw [wfB_iff] at hwf
  obtain ⟨_, _, hq1, hq2⟩ := hwf
  have hbq : bq ≠ [] := hq1 (bp, bq) (List.mem_cons_self _ _)
  have haq : aq ≠ [] := hq2 (ap, aq) (List.mem_cons_self _ _)
  rcases bq with _ | ⟨bid, bqTail⟩
  · exact absurd rfl hbq
  rcases aq with _ | ⟨ask, aqTail⟩
  · exact absurd rfl haq
  by_cases hlt : bp < ap
  · simpa [uncrossedB] using hlt
  · exfalso
    have hbf := Order.fill_of_le bid _
      (Nat.min_le_left bid.remainingQuantity ask.remainingQuantity)
    have haf := Order.fill_of_le ask _
      (Nat.min_le_right bid.remainingQuantity ask.remainingQuantity)
    simp only [matchStep, if_neg hlt] at h
    simp [hbf, haf] at h

/-- Whatever the matching loop returns is well-formed and uncrossed. -/
theorem matchLoopF_wf :
    ∀ (fuel : Nat) (s : BookState) (t : List Trade) (s' : BookState),
      wfB s = true → matchLoopF fuel s = some (t, s') →
      wfB s' = true ∧ uncrossedB s' = true := by
  intro fuel
  induction fuel with
  | zero => intro s t s' _ h; cases h
  | succ fuel ih =>
    intro s t s' hwf h
    cases hs : matchStep s with
    | done =>
      simp only [matchLoopF, hs, Option.some.injEq, Prod.mk.injEq] at h
      obtain ⟨rfl, rfl⟩ := h
      exact ⟨hwf, uncrossed_of_done hwf hs⟩
    | overfill => exact absurd hs (matchStep_ne_overfill s)
    | step tr s1 =>
      simp only [matchLoopF, hs] at h
      have hwf1 := matchStep_wf hwf hs
      cases hm : matchLoopF fuel s1 with
      | none => rw [hm] at h; cases h
      | some r =>
        rcases r with ⟨trs, s2⟩
        rw [hm] at h
        simp only [Option.some.injEq, Prod.mk.injEq] at h
        obtain ⟨rfl, rfl⟩ := h
        exact ih s1 trs s2 hwf1 hm

/-- C3: the matching loop never fills an uncrossed book: entered with an
empty side or with best bid < best ask it emits no trade and changes
nothing (and each recursive re-entry re-checks this), and in every state in
which it terminates either a side is empty or best bid < best ask. -/
theorem no_adverse_crossing :
    (∀ s : BookState, uncrossedB s = true → s.matchOrders = ([], s)) ∧
    (∀ s : BookState, wfB s = true → uncrossedB (s.matchOrders).2 = true) := by
  refine ⟨fun s h => matchOrders_of_uncrossed h, fun s hwf => ?_⟩
  exact (matchLoopF_wf (s.orderCount + 1) s (s.matchOrders).1 (s.matchOrders).2 hwf
    (matchOrders_eq s)).2

/-- Witness for `no_adverse_crossing` at two concrete books. -/
theorem no_adverse_crossing_witness :
    uncrossedB restingBook = true ∧ restingBook.matchOrders = ([], restingBook) ∧
    wfB crossedBook = true ∧ uncrossedB (crossedBook.matchOrders).2 = true :=
  ⟨by decide, no_adverse_crossing.1 restingBook (by decide),
   by decide, no_adverse_crossing.2 crossedBook (by decide)⟩

/-- C10: every invocation of the matching loop terminates without raising
the overfill error: the traded quantity is the minimum of the two heads'
remaining quantities so `Order::Fill` never throws there, each fill removes
at least one order from the book, and fuel `orderCount + 1` (one final
check plus at most one iteration per live order) always completes. -/
theorem match_orders_terminate :
    (∀ s : BookState, matchStep s ≠ .overfill) ∧
    (∀ (s : BookState) (tr : Trade) (s' : BookState),
       matchStep s = .step tr s' → s'.orderCount < s.orderCount) ∧
    (∀ s : BookState, (matchLoopF (s.orderCount + 1) s).isSome = true) :=
  ⟨matchStep_ne_overfill, fun _ _ _ h => matchStep_count h,
   fun s => matchLoopF_isSome _ s (Nat.lt_succ_self _)⟩

/-- Witness for `match_orders_terminate` at a concrete crossed book. -/
theorem match_orders_terminate_witness :
    matchStep crossedBook = .step ⟨⟨1, 10, 1⟩, ⟨2, 10, 1⟩⟩ ⟨[], []⟩ ∧
    (⟨[], []⟩ : BookState).orderCount < crossedBook.orderCount :=
  ⟨by decide,
   match_orders_terminate.2.1 crossedBook ⟨⟨1, 10, 1⟩, ⟨2, 10, 1⟩⟩ ⟨[], []⟩ (by decide)⟩

theorem queueRemaining_cons (o : Order) (q : List Order) :
    queueRemaining (o :: q) = o.remainingQuantity + queueRemaining q := by
  simp [queueRemaining]

theorem sideRemaining_cons (p : Nat) (q : List Order) (rest : SideLevels) :
    sideRemaining ((p, q) :: rest) = queueRemaining q + sideRemaining rest := by
  simp [sideRemaining]

/-- Filling one head by `tq` removes exactly `tq` from that side's summed
remaining quantity. -/
theorem sideRemaining_fillSide (p : Nat) (o : Order) (qTail : List Order)
    (rest : SideLevels) (tq : Nat) (h : tq ≤ o.remainingQuantity) :
    sideRemaining (fillSide p o qTail rest tq) + tq =
      sideRemaining ((p, o :: qTail) :: rest) := by
  rw [sideRemaining_cons, queueRemaining_cons]
  simp only [fillSide]
  split
  · rename_i hfill
    simp only [Order.isFilled, beq_iff_eq] at hfill
    split
    · rename_i hempty
      rw [List.isEmpty_iff] at hempty
      subst hempty
      simp only [queueRemaining, List.map_nil, List.sum_nil]
      omega
    · rw [sideRemaining_cons]
      omega
  · rename_i hfill
    simp only [Order.isFilled, beq_iff_eq] at hfill
    simp only [List.isEmpty_cons, Bool.false_eq_true, if_false]
    rw [sideRemaining_cons, queueRemaining_cons]
    dsimp only
    omega

/-- One fill conserves quantity: the book's summed remaining quantity drops
by the traded quantity on each of the two sides. -/
theorem matchStep_remaining {s : BookState} {tr : Trade} {s' : BookState}
    (h : matchStep s = .step tr s') :
    s.totalRemaining = s'.totalRemaining + 2 * tr.bid.quantity := by
  obtain ⟨bp, bid, bqTail, bidRest, ap, ask, aqTail, askRest,
    hb, ha, _, htr, hs'⟩ := matchStep_step_inv h
  have hbq := sideRemaining_fillSide bp bid bqTail bidRest _
    (Nat.min_le_left bid.remainingQuantity ask.remainingQuantity)
  have haq := sideRemaining_fillSide ap ask aqTail askRest _
    (Nat.min_le_right bid.remainingQuantity ask.remainingQuantity)
  subst hs'
  subst htr
  simp only [BookState.totalRemaining, hb, ha]
  omega

/-- The matching loop conserves quantity: the book's summed remaining
quantity decreases by twice the sum of the traded quantities. -/
theorem matchLoopF_remaining :
    ∀ (fuel : Nat) (s : BookState) (t : List Trade) (s' : BookState),
      matchLoopF fuel s = some (t, s') →
      s.totalRemaining = s'.totalRemaining + 2 * tradesQuantity t := by
  intro fuel
  induction fuel with
  | zero => intro s t s' h; cases h
  | succ fuel ih =>
    intro s t s' h
    cases hs : matchStep s with
    | done =>
      simp only [matchLoopF, hs, Option.some.injEq, Prod.mk.injEq] at h
      obtain ⟨rfl, rfl⟩ := h
      simp [tradesQuantity]
    | overfill => exact absurd hs (matchStep_ne_overfill s)
    | step tr s1 =>
      simp only [matchLoopF, hs] at h
      cases hm : matchLoopF fuel s1 with
      | none => rw [hm] at h; cases h
      | some r =>
        rcases r with ⟨trs, s2⟩
        rw [hm] at h
        simp only [Option.some.injEq, Prod.mk.injEq] at h
        obtain ⟨rfl, rfl⟩ := h
        have h1 := matchStep_remaining hs
        have h2 := ih s1 trs s2 hm
        simp only [tradesQuantity, List.map_cons, List.sum_cons] at h2 ⊢
        omega

/-- C2 (amended): every fill trades exactly the minimum of the two head
orders' pre-fill remaining quantities — both legs of the emitted trade
carry that one quantity, which is at most either head's remaining — and
across one invocation of the matching loop the book's summed remaining
quantity decreases by exactly twice the sum of the traded quantities of
the emitted trades, each traded unit being removed once from the bid side
and once from the ask side. -/
theorem quantity_conservation :
    (∀ (s : BookState) (tr : Trade) (s' : BookState), matchStep s = .step tr s' →
      ∃ bp bid bqTail bidRest ap ask aqTail askRest,
        s.bids = (bp, bid :: bqTail) :: bidRest ∧
        s.asks = (ap, ask :: aqTail) :: askRest ∧
        tr.bid.quantity = tr.ask.quantity ∧
        tr.bid.quantity = min bid.remainingQuantity ask.remainingQuantity ∧
        tr.bid.quantity ≤ bid.remainingQuantity ∧
        tr.bid.quantity ≤ ask.remainingQuantity) ∧
    (∀ (s : BookState) (t : List Trade) (s' : BookState),
      s.matchOrders = (t, s') →
      s.totalRemaining = s'.totalRemaining + 2 * tradesQuantity t) := by
  constructor
  · intro s tr s' h
    obtain ⟨bp, bid, bqTail, bidRest, ap, ask, aqTail, askRest,
      hb, ha, _, htr, _⟩ := matchStep_step_inv h
    subst htr
    exact ⟨bp, bid, bqTail, bidRest, ap, ask, aqTail, askRest, hb, ha, rfl, rfl,
      Nat.min_le_left _ _, Nat.min_le_right _ _⟩
  · intro s t s' h
    refine matchLoopF_remaining (s.orderCount + 1) s t s' ?_
    rw [matchOrders_eq s, h]

/-- Counterexample to C2 as stated: at `crossedBook` (one bid of quantity 1
and one ask of quantity 1, both at price 10) the matching loop emits one
trade of quantity 1 while the book's summed remaining quantity falls from 2
to 0 — a decrease of 2, not of 1 (the decrease is twice the sum of traded
quantities, since each unit leaves both a bid and an ask). -/
theorem quantity_conservation_counterexample :
    crossedBook.totalRemaining - (crossedBook.matchOrders).2.totalRemaining ≠
      tradesQuantity (crossedBook.matchOrders).1 := by decide

/-- Witness for `quantity_conservation` at the concrete crossed book. -/
theorem quantity_conservation_witness :
    matchStep crossedBook = .step ⟨⟨1, 10, 1⟩, ⟨2, 10, 1⟩⟩ ⟨[], []⟩ ∧
    (∃ bp bid bqTail bidRest ap ask aqTail askRest,
      crossedBook.bids = (bp, bid :: bqTail) :: bidRest ∧
      crossedBook.asks = (ap, ask :: aqTail) :: askRest ∧
      (⟨⟨1, 10, 1⟩, ⟨2, 10, 1⟩⟩ : Trade).bid.quantity =
        (⟨⟨1, 10, 1⟩, ⟨2, 10, 1⟩⟩ : Trade).ask.quantity ∧
      (⟨⟨1, 10, 1⟩, ⟨2, 10, 1⟩⟩ : Trade).bid.quantity =
        min bid.remainingQuantity ask.remainingQuantity ∧
      (⟨⟨1, 10, 1⟩, ⟨2, 10, 1⟩⟩ : Trade).bid.quantity ≤ bid.remainingQuantity ∧
      (⟨⟨1, 10, 1⟩, ⟨2, 10, 1⟩⟩ : Trade).bid.quantity ≤ ask.remainingQuantity) ∧
    crossedBook.matchOrders = ([⟨⟨1, 10, 1⟩, ⟨2, 10, 1⟩⟩], ⟨[], []⟩) ∧
    crossedBook.totalRemaining =
      (⟨[], []⟩ : BookState).totalRemaining +
        2 * tradesQuantity [⟨⟨1, 10, 1⟩, ⟨2, 10, 1⟩⟩] :=
  ⟨by decide,
   quantity_conservation.1 crossedBook ⟨⟨1, 10, 1⟩, ⟨2, 10, 1⟩⟩ ⟨[], []⟩ (by decide),
   by decide,
   quantity_conservation.2 crossedBook [⟨⟨1, 10, 1⟩, ⟨2, 10, 1⟩⟩] ⟨[], []⟩ (by decide)⟩

/-- C1 fails on the code: the post-loop FillAndKill eviction in
`MatchOrders` (source lines 367–381) is an empty stub — the branch that
detects a stranded `FillAndKill` head contains only the comment
`// Cancel order` — so after submitting GTC Sell id 1 qty 1 at 10 and then
FillAndKill Buy id 2 qty 5 at 10, `submit` returns with the FillAndKill
order still resting in the order index, remaining quantity 4.  The
source's own comments and the spec agree the order must be evicted, so the
code, not the claim, is wrong. -/
theorem fill_and_kill_rests :
    fakBook.findOrder 2 = some ⟨.FillAndKill, 2, .Buy, 10, 5, 4⟩ ∧
    fakBook.getSize = 1 := by decide

theorem addTrade_dup {s : BookState} {o : Order}
    (h : s.contains o.orderId = true) : s.addTrade o = ([], s) := by
  simp [BookState.addTrade, h]

theorem addTrade_fak_nomatch {s : BookState} {o : Order}
    (ht : o.orderType = .FillAndKill)
    (hc : s.canMatch o.side o.price = false) : s.addTrade o = ([], s) := by
  unfold BookState.addTrade
  by_cases hdup : s.contains o.orderId = true
  · rw [if_pos hdup]
  · rw [if_neg hdup, if_pos ⟨ht, hc⟩]

/-- C8: the three silent no-ops: submitting a duplicate order id,
submitting a FillAndKill order that cannot match on admission, and
modifying an unknown target id each return an empty trade list and leave
the whole state unchanged.  No error is raised: each path returns before
reaching the only fallible operation, `Order::Fill` inside the matching
loop. -/
theorem silent_noop_conditions :
    (∀ (s : BookState) (o : Order), s.contains o.orderId = true →
       s.addTrade o = ([], s)) ∧
    (∀ (s : BookState) (o : Order), o.orderType = .FillAndKill →
       s.canMatch o.side o.price = false → s.addTrade o = ([], s)) ∧
    (∀ (s : BookState) (m : ModOrder), s.findOrder m.orderId = none →
       s.modifyOrder m = ([], s)) := by
  refine ⟨fun s o h => addTrade_dup h, fun s o ht hc => addTrade_fak_nomatch ht hc,
    fun s m h => ?_⟩
  simp [BookState.modifyOrder, h]

/-- Witness for `silent_noop_conditions` at concrete inputs: resubmitting
id 1 into `restingBook`, a FillAndKill buy into the empty book, and a
modification of an id unknown to the empty book. -/
theorem silent_noop_conditions_witness :
    restingBook.contains 1 = true ∧
    restingBook.addTrade ⟨.GoodTillCanceled, 1, .Buy, 11, 2, 2⟩ = ([], restingBook) ∧
    bookEmpty.canMatch .Buy 10 = false ∧
    bookEmpty.addTrade ⟨.FillAndKill, 5, .Buy, 10, 3, 3⟩ = ([], bookEmpty) ∧
    bookEmpty.findOrder 9 = none ∧
    bookEmpty.modifyOrder ⟨9, 12, .Buy, 2⟩ = ([], bookEmpty) :=
  ⟨by decide,
   silent_noop_conditions.1 restingBook ⟨.GoodTillCanceled, 1, .Buy, 11, 2, 2⟩ (by decide),
   by decide,
   silent_noop_conditions.2.1 bookEmpty ⟨.FillAndKill, 5, .Buy, 10, 3, 3⟩ rfl (by decide),
   by decide,
   silent_noop_conditions.2.2 bookEmpty ⟨9, 12, .Buy, 2⟩ (by decide)⟩

theorem mem_eraseOrder {id : Nat} {q : List Order} {x : Order}
    (h : x ∈ eraseOrder id q) : x ∈ q := by
  induction q with
  | nil => cases h
  | cons o rest ih =>
    simp only [eraseOrder] at h
    split at h
    · exact List.mem_cons_of_mem _ h
    · rcases List.mem_cons.1 h with h1 | h2
      · exact h1 ▸ List.mem_cons_self _ _
      · exact List.mem_cons_of_mem _ (ih h2)

theorem eraseOrder_length {id : Nat} {q : List Order}
    (h : ∃ o ∈ q, o.orderId = id) :
    (eraseOrder id q).length + 1 = q.length := by
  induction q with
  | nil => simp at h
  | cons o rest ih =>
    simp only [eraseOrder]
    split
    · simp
    · rename_i hne
      obtain ⟨x, hx, hxid⟩ := h
      rcases List.mem_cons.1 hx with rfl | hmem
      · rw [hxid] at hne; simp at hne
      · simp only [List.length_cons]
        rw [ih ⟨x, hmem, hxid⟩]

theorem count_eraseOrder {id : Nat} {q : List Order}
    (h : ∃ o ∈ q, o.orderId = id) :
    ((eraseOrder id q).map Order.orderId).count id + 1 =
      (q.map Order.orderId).count id := by
  induction q with
  | nil => simp at h
  | cons o rest ih =>
    simp only [eraseOrder]
    split
    · rename_i heq
      rw [beq_iff_eq] at heq
      simp [List.count_cons, heq]
    · rename_i hne
      obtain ⟨x, hx, hxid⟩ := h
      rcases List.mem_cons.1 hx with rfl | hmem
      · rw [hxid] at hne; simp at hne
      · have hoid : ¬ o.orderId = id := by
          intro hc; rw [hc] at hne; simp at hne
        simp only [List.map_cons, List.count_cons]
        rw [← ih ⟨x, hmem, hxid⟩]
        simp [hoid]

theorem levelOf_not_mem {p : Nat} {levels : SideLevels}
    (h : p ∉ levels.map Prod.fst) : levelOf levels p = [] := by
  induction levels with
  | nil => rfl
  | cons lv rest ih =>
    simp only [List.map_cons, List.mem_cons, not_or] at h
    simp only [levelOf, List.find?]
    have : (lv.1 == p) = false := by
      rw [beq_eq_false_iff_ne]
      exact fun hc => h.1 hc.symm
    rw [this]
    exact ih h.2

theorem hasLevel_not_mem {p : Nat} {levels : SideLevels}
    (h : p ∉ levels.map Prod.fst) : hasLevel levels p = false := by
  simp only [hasLevel, List.any_eq_false]
  intro lv hlv hc
  rw [beq_iff_eq] at hc
  exact h (List.mem_map.2 ⟨lv, hlv, hc⟩)

theorem levelOf_eq_of_mem {levels : SideLevels} {lv : Nat × List Order}
    (hnd : (levels.map Prod.fst).Nodup) (hmem : lv ∈ levels) :
    levelOf levels lv.1 = lv.2 := by
  induction levels with
  | nil => cases hmem
  | cons hd rest ih =>
    simp only [List.map_cons, List.nodup_cons] at hnd
    rcases List.mem_cons.1 hmem with rfl | hmem2
    · simp [levelOf, List.find?]
    · have hne : (hd.1 == lv.1) = false := by
        simp only [beq_eq_false_iff_ne, ne_eq]
        intro hc
        exact hnd.1 (hc ▸ List.mem_map.2 ⟨lv, hmem2, rfl⟩)
      simp only [levelOf, List.find?, hne]
      exact ih hnd.2 hmem2

theorem hasLevel_of_mem {levels : SideLevels} {lv : Nat × List Order}
    (hmem : lv ∈ levels) : hasLevel levels lv.1 = true := by
  simp only [hasLevel, List.any_eq_true]
  exact ⟨lv, hmem, by simp⟩

theorem mem_allOrders {levels : SideLevels} {o : Order} :
    o ∈ allOrders levels ↔ ∃ lv ∈ levels, o ∈ lv.2 := by
  simp [allOrders, List.mem_flatMap]

/-- Keys of a sorted side dominate the head key. -/
theorem sortedKeysB_head_lt (lt : Nat → Nat → Bool)
    (htrans : ∀ a b c, lt a b = true → lt b c = true → lt a c = true) :
    ∀ (a : Nat × List Order) (rest : SideLevels),
      sortedKeysB lt (a :: rest) = true →
      ∀ lv ∈ rest, lt a.1 lv.1 = true := by
  intro a rest
  induction rest generalizing a with
  | nil => intro _ lv hlv; cases hlv
  | cons b bs ih =>
    intro h lv hlv
    simp only [sortedKeysB, Bool.and_eq_true] at h
    rcases List.mem_cons.1 hlv with rfl | hmem
    · exact h.1
    · exact htrans _ _ _ h.1 (ih b h.2 lv hmem)

/-- Keys of a sorted side are pairwise distinct. -/
theorem sortedKeysB_nodup_keys (lt : Nat → Nat → Bool)
    (htrans : ∀ a b c, lt a b = true → lt b c = true → lt a c = true)
    (hirr : ∀ a, lt a a = false) :
    ∀ levels : SideLevels, sortedKeysB lt levels = true →
      (levels.map Prod.fst).Nodup := by
  intro levels
  induction levels with
  | nil => intro _; simp
  | cons a rest ih =>
    intro h
    simp only [List.map_cons, List.nodup_cons]
    refine ⟨?_, ih (sortedKeysB_tail lt a rest h)⟩
    intro hmem
    obtain ⟨lv, hlv, hkey⟩ := List.mem_map.1 hmem
    have := sortedKeysB_head_lt lt htrans a rest h lv hlv
    rw [hkey] at this
    rw [hirr a.1] at this
    cases this

theorem bidLt_trans (a b c : Nat) (h1 : bidLt a b = true) (h2 : bidLt b c = true) :
    bidLt a c = true := by
  simp only [bidLt, decide_eq_true_eq] at h1 h2 ⊢
  omega

theorem bidLt_irrefl (a : Nat) : bidLt a a = false := by
  simp [bidLt]

theorem askLt_trans (a b c : Nat) (h1 : askLt a b = true) (h2 : askLt b c = true) :
    askLt a c = true := by
  simp only [askLt, decide_eq_true_eq] at h1 h2 ⊢
  omega

theorem askLt_irrefl (a : Nat) : askLt a a = false := by
  simp [askLt]

/-- Both sides of a well-formed book have pairwise-distinct level keys. -/
theorem wfB_nodup_keys {s : BookState} (h : wfB s = true) :
    (s.bids.map Prod.fst).Nodup ∧ (s.asks.map Prod.fst).Nodup := by
  rw [wfB_iff] at h
  exact ⟨sortedKeysB_nodup_keys bidLt bidLt_trans bidLt_irrefl s.bids h.1,
         sortedKeysB_nodup_keys askLt askLt_trans askLt_irrefl s.asks h.2.1⟩

theorem levelOf_cons_self (p : Nat) (q : List Order) (rest : SideLevels) :
    levelOf ((p, q) :: rest) p = q := by
  simp [levelOf, List.find?]

theorem levelOf_cons_ne {k p : Nat} (q : List Order) (rest : SideLevels)
    (h : k ≠ p) : levelOf ((k, q) :: rest) p = levelOf rest p := by
  have : (k == p) = false := by rw [beq_eq_false_iff_ne]; exact h
  simp [levelOf, List.find?, this]

theorem hasLevel_cons (k p : Nat) (q : List Order) (rest : SideLevels) :
    hasLevel ((k, q) :: rest) p = ((k == p) || hasLevel rest p) := by
  simp [hasLevel]

/-- After erasing the unique holder of an id from a queue, no order in the
queue carries that id. -/
theorem eraseOrder_no_id {id : Nat} {q : List Order}
    (hnd : (q.map Order.orderId).Nodup) :
    ∀ x ∈ eraseOrder id q, x.orderId ≠ id := by
  induction q with
  | nil => intro x hx; cases hx
  | cons o rest ih =>
    simp only [List.map_cons, List.nodup_cons] at hnd
    simp only [eraseOrder]
    split
    · rename_i heq
      rw [beq_iff_eq] at heq
      intro x hx hxid
      have hm : x.orderId ∈ rest.map Order.orderId := List.mem_map.2 ⟨x, hx, rfl⟩
      rw [hxid, ← heq] at hm
      exact hnd.1 hm
    · rename_i hne
      intro x hx
      rcases List.mem_cons.1 hx with rfl | hmem
      · intro hc
        rw [hc] at hne
        simp at hne
      · exact ih hnd.2 x hmem

theorem mem_levelOf {x : Order} {levels : SideLevels} {p : Nat}
    (h : x ∈ levelOf levels p) : x ∈ allOrders levels := by
  unfold levelOf at h
  cases hf : levels.find? (fun lv => lv.1 == p) with
  | none => rw [hf] at h; cases h
  | some lv =>
    rw [hf] at h
    exact mem_allOrders.2 ⟨lv, List.mem_of_find?_eq_some hf, h⟩

theorem nodup_map_append_disjoint {l1 l2 : List Order}
    (hnd : ((l1 ++ l2).map Order.orderId).Nodup) {x y : Order}
    (hx : x ∈ l1) (hy : y ∈ l2) : x.orderId ≠ y.orderId := by
  rw [List.map_append] at hnd
  rcases List.nodup_append.1 hnd with ⟨_, _, hdisj⟩
  intro he
  exact hdisj (List.mem_map.2 ⟨x, hx, rfl⟩) (he ▸ List.mem_map.2 ⟨y, hy, rfl⟩)

theorem removeFromLevels_cons_eq (p id : Nat) (q : List Order)
    (rest : SideLevels) :
    removeFromLevels p id ((p, q) :: rest) =
      if (eraseOrder id q).isEmpty then rest
      else (p, eraseOrder id q) :: rest := by
  simp [removeFromLevels]

theorem removeFromLevels_cons_ne {k p : Nat} (id : Nat) (q : List Order)
    (rest : SideLevels) (h : k ≠ p) :
    removeFromLevels p id ((k, q) :: rest) =
      (k, q) :: removeFromLevels p id rest := by
  simp [removeFromLevels, h]

/-- Removing an order from its level edits exactly that level's queue. -/
theorem levelOf_removeFromLevels_self {p id : Nat} {levels : SideLevels}
    (hnd : (levels.map Prod.fst).Nodup) :
    levelOf (removeFromLevels p id levels) p =
      eraseOrder id (levelOf levels p) := by
  induction levels with
  | nil => rfl
  | cons lv rest ih =>
    rcases lv with ⟨k, q⟩
    simp only [List.map_cons, List.nodup_cons] at hnd
    by_cases hk : k = p
    · subst hk
      rw [removeFromLevels_cons_eq, levelOf_cons_self]
      by_cases hemp : (eraseOrder id q).isEmpty = true
      · rw [if_pos hemp]
        rw [List.isEmpty_iff] at hemp
        rw [hemp]
        exact levelOf_not_mem hnd.1
      · rw [if_neg hemp, levelOf_cons_self]
    · rw [removeFromLevels_cons_ne id q rest hk,
        levelOf_cons_ne q _ hk, levelOf_cons_ne q rest hk]
      exact ih hnd.2

/-- Removing an order from its level leaves every other level untouched. -/
theorem levelOf_removeFromLevels_other {p id p' : Nat} (levels : SideLevels)
    (h : p' ≠ p) :
    levelOf (removeFromLevels p id levels) p' = levelOf levels p' := by
  induction levels with
  | nil => rfl
  | cons lv rest ih =>
    rcases lv with ⟨k, q⟩
    by_cases hk : k = p
    · subst hk
      have hk' : k ≠ p' := fun hc => h hc.symm
      rw [removeFromLevels_cons_eq, levelOf_cons_ne q rest hk']
      by_cases hemp : (eraseOrder id q).isEmpty = true
      · rw [if_pos hemp]
      · rw [if_neg hemp, levelOf_cons_ne _ rest hk']
    · rw [removeFromLevels_cons_ne id q rest hk]
      by_cases hk' : k = p'
      · subst hk'
        rw [levelOf_cons_self, levelOf_cons_self]
      · rw [levelOf_cons_ne q _ hk', levelOf_cons_ne q rest hk']
        exact ih

/-- The canceled order's level survives iff its queue kept an order. -/
theorem hasLevel_removeFromLevels_self {p id : Nat} {levels : SideLevels}
    (hnd : (levels.map Prod.fst).Nodup) :
    hasLevel (removeFromLevels p id levels) p =
      !(eraseOrder id (levelOf levels p)).isEmpty := by
  induction levels with
  | nil => rfl
  | cons lv rest ih =>
    rcases lv with ⟨k, q⟩
    simp only [List.map_cons, List.nodup_cons] at hnd
    by_cases hk : k = p
    · subst hk
      rw [removeFromLevels_cons_eq, levelOf_cons_self]
      by_cases hemp : (eraseOrder id q).isEmpty = true
      · rw [if_pos hemp, hemp, hasLevel_not_mem hnd.1]
        decide
      · rw [if_neg hemp, hasLevel_cons]
        simp [Bool.not_eq_true] at hemp
        simp [hemp]
    · rw [removeFromLevels_cons_ne id q rest hk]
      have hkp : (k == p) = false := by rw [beq_eq_false_iff_ne]; exact hk
      rw [hasLevel_cons, hkp, levelOf_cons_ne q rest hk]
      simp only [Bool.false_or]
      exact ih hnd.2

/-- Canceling a live order shrinks the (synced) order index by one. -/
theorem length_allOrders_removeFromLevels {p id : Nat} {levels : SideLevels}
    (hmem : ∃ o ∈ levelOf levels p, o.orderId = id) :
    (allOrders (removeFromLevels p id levels)).length + 1 =
      (allOrders levels).length := by
  induction levels with
  | nil => obtain ⟨o, ho, _⟩ := hmem; cases ho
  | cons lv rest ih =>
    rcases lv with ⟨k, q⟩
    by_cases hk : k = p
    · subst hk
      rw [levelOf_cons_self] at hmem
      have hlen := eraseOrder_length hmem
      rw [removeFromLevels_cons_eq]
      by_cases hemp : (eraseOrder id q).isEmpty = true
      · rw [if_pos hemp]
        rw [List.isEmpty_iff] at hemp
        rw [hemp] at hlen
        simp only [List.length_nil, Nat.zero_add] at hlen
        rw [allOrders_cons, List.length_append, ← hlen]
        omega
      · rw [if_neg hemp, allOrders_cons, allOrders_cons,
          List.length_append, List.length_append]
        omega
    · rw [levelOf_cons_ne q rest hk] at hmem
      rw [removeFromLevels_cons_ne id q rest hk, allOrders_cons, allOrders_cons,
        List.length_append, List.length_append]
      have := ih hmem
      omega

/-- After canceling the unique holder of an id from one side, no order on
that side carries the id. -/
theorem no_id_removeFromLevels {p id : Nat} {levels : SideLevels}
    (hnd : ((allOrders levels).map Order.orderId).Nodup)
    (hmem : ∃ o ∈ levelOf levels p, o.orderId = id) :
    ∀ x ∈ allOrders (removeFromLevels p id levels), x.orderId ≠ id := by
  induction levels with
  | nil => obtain ⟨o, ho, _⟩ := hmem; cases ho
  | cons lv rest ih =>
    rcases lv with ⟨k, q⟩
    rw [allOrders_cons] at hnd
    by_cases hk : k = p
    · subst hk
      obtain ⟨o, ho, hoid⟩ := hmem
      rw [levelOf_cons_self] at ho
      rw [removeFromLevels_cons_eq]
      by_cases hemp : (eraseOrder id q).isEmpty = true
      · rw [if_pos hemp]
        intro x hx hxid
        exact nodup_map_append_disjoint hnd ho hx (by rw [hoid, hxid])
      · rw [if_neg hemp]
        intro x hx hxid
        rw [allOrders_cons] at hx
        rcases List.mem_append.1 hx with h1 | h2
        · have hqnd : (q.map Order.orderId).Nodup := by
            rw [List.map_append] at hnd
            exact (List.nodup_append.1 hnd).1
          exact eraseOrder_no_id hqnd x h1 hxid
        · exact nodup_map_append_disjoint hnd ho h2 (by rw [hoid, hxid])
    · rw [removeFromLevels_cons_ne id q rest hk]
      intro x hx hxid
      rw [allOrders_cons] at hx
      obtain ⟨o, ho, hoid⟩ := hmem
      rw [levelOf_cons_ne q rest hk] at ho
      have ho' : o ∈ allOrders rest := mem_levelOf ho
      rcases List.mem_append.1 hx with h1 | h2
      · exact nodup_map_append_disjoint hnd h1 ho' (by rw [hxid, hoid])
      · have hndr : ((allOrders rest).map Order.orderId).Nodup := by
          rw [List.map_append] at hnd
          exact (List.nodup_append.1 hnd).2.1
        exact ih hndr ⟨o, ho, hoid⟩ x h2 hxid

theorem findOrder_eq_none_iff {s : BookState} {id : Nat} :
    s.findOrder id = none ↔ ∀ x ∈ bookOrders s, x.orderId ≠ id := by
  simp [BookState.findOrder, List.find?_eq_none]

theorem findOrder_some {s : BookState} {id : Nat} {o : Order}
    (h : s.findOrder id = some o) : o ∈ bookOrders s ∧ o.orderId = id := by
  refine ⟨List.mem_of_find?_eq_some h, ?_⟩
  have := List.find?_some h
  rwa [beq_iff_eq] at this

/-- A found order really sits in the level its own fields name. -/
theorem findOrder_located {s : BookState} {id : Nat} {o : Order}
    (hwf : wfB s = true) (hloc : Located s) (h : s.findOrder id = some o) :
    o ∈ levelOf (s.sideOf o.side) o.price ∧
    hasLevel (s.sideOf o.side) o.price = true := by
  obtain ⟨hmemB, _⟩ := findOrder_some h
  obtain ⟨hnb, hna⟩ := wfB_nodup_keys hwf
  rcases List.mem_append.1 hmemB with hb | ha
  · obtain ⟨lv, hlv, hoin⟩ := mem_allOrders.1 hb
    obtain ⟨hside, hprice⟩ := hloc.1 lv hlv o hoin
    rw [hside]
    show o ∈ levelOf s.bids o.price ∧ hasLevel s.bids o.price = true
    rw [hprice, levelOf_eq_of_mem hnb hlv]
    exact ⟨hoin, hasLevel_of_mem hlv⟩
  · obtain ⟨lv, hlv, hoin⟩ := mem_allOrders.1 ha
    obtain ⟨hside, hprice⟩ := hloc.2 lv hlv o hoin
    rw [hside]
    show o ∈ levelOf s.asks o.price ∧ hasLevel s.asks o.price = true
    rw [hprice, levelOf_eq_of_mem hna hlv]
    exact ⟨hoin, hasLevel_of_mem hlv⟩

/-- C7: canceling an unknown id leaves the whole book unchanged; canceling
a live id removes exactly that order: the id leaves the order index,
`size()` drops by one, the order's own price level has exactly that entry
erased from its queue and disappears exactly when the queue emptied, and
every other level of either side keeps its queue.  No trades are produced:
`cancelOrder` is `void` in the source, so its model returns only the new
state. -/
theorem cancel_order_semantics :
    (∀ (s : BookState) (orderId : Nat), s.findOrder orderId = none →
       s.cancelOrder orderId = s) ∧
    (∀ (s : BookState) (orderId : Nat) (o : Order),
       wfB s = true → UniqueIds s → Located s → s.findOrder orderId = some o →
       (s.cancelOrder orderId).findOrder orderId = none ∧
       (s.cancelOrder orderId).orderCount + 1 = s.orderCount ∧
       (∀ (sd : Side) (p : Nat), sd ≠ o.side ∨ p ≠ o.price →
          levelOf ((s.cancelOrder orderId).sideOf sd) p =
            levelOf (s.sideOf sd) p) ∧
       levelOf ((s.cancelOrder orderId).sideOf o.side) o.price =
         eraseOrder orderId (levelOf (s.sideOf o.side) o.price) ∧
       (hasLevel ((s.cancelOrder orderId).sideOf o.side) o.price = true ↔
          eraseOrder orderId (levelOf (s.sideOf o.side) o.price) ≠ [])) := by
  constructor
  · intro s orderId h
    simp [BookState.cancelOrder, h]
  · intro s orderId o hwf huid hloc h
    obtain ⟨hoin, hhas⟩ := findOrder_located hwf hloc h
    obtain ⟨hmemB, hid⟩ := findOrder_some h
    obtain ⟨hnb, hna⟩ := wfB_nodup_keys hwf
    have hndAll : ((allOrders s.bids ++ allOrders s.asks).map Order.orderId).Nodup :=
      huid
    cases hsd : o.side with
    | Buy =>
      rw [hsd] at hoin hhas
      have hcancel : s.cancelOrder orderId =
          ⟨removeFromLevels o.price orderId s.bids, s.asks⟩ := by
        simp [BookState.cancelOrder, h, hsd]
      have hmem : ∃ x ∈ levelOf s.bids o.price, x.orderId = orderId := ⟨o, hoin, hid⟩
      have hndb : ((allOrders s.bids).map Order.orderId).Nodup := by
        rw [List.map_append] at hndAll
        exact (List.nodup_append.1 hndAll).1
      have hobids : o ∈ allOrders s.bids := mem_levelOf hoin
      refine ⟨?_, ?_, ?_, ?_, ?_⟩
      · rw [hcancel, findOrder_eq_none_iff]
        intro x hx
        rcases List.mem_append.1 hx with h1 | h2
        · exact no_id_removeFromLevels hndb hmem x h1
        · intro hxid
          exact nodup_map_append_disjoint hndAll hobids h2 (by rw [hid, hxid])
      · rw [hcancel]
        simp only [BookState.orderCount, bookOrders, List.length_append]
        have := length_allOrders_removeFromLevels hmem
        omega
      · intro sd p hne
        rw [hcancel]
        cases sd with
        | Buy =>
          have hp : p ≠ o.price := by
            rcases hne with h1 | h1
            · exact absurd rfl h1
            · exact h1
          exact levelOf_removeFromLevels_other s.bids hp
        | Sell => rfl
      · rw [hcancel]
        exact levelOf_removeFromLevels_self hnb
      · rw [hcancel]
        show hasLevel (removeFromLevels o.price orderId s.bids) o.price = true ↔ _
        rw [hasLevel_removeFromLevels_self hnb]
        simp only [Bool.not_eq_true', List.isEmpty_eq_false, ne_eq]
        exact Iff.rfl
    | Sell =>
      rw [hsd] at hoin hhas
      have hcancel : s.cancelOrder orderId =
          ⟨s.bids, removeFromLevels o.price orderId s.asks⟩ := by
        simp [BookState.cancelOrder, h, hsd]
      have hmem : ∃ x ∈ levelOf s.asks o.price, x.orderId = orderId := ⟨o, hoin, hid⟩
      have hnda : ((allOrders s.asks).map Order.orderId).Nodup := by
        rw [List.map_append] at hndAll
        exact (List.nodup_append.1 hndAll).2.1
      have hoasks : o ∈ allOrders s.asks := mem_levelOf hoin
      refine ⟨?_, ?_, ?_, ?_, ?_⟩
      · rw [hcancel, findOrder_eq_none_iff]
        intro x hx
        rcases List.mem_append.1 hx with h1 | h2
        · intro hxid
          exact nodup_map_append_disjoint hndAll h1 hoasks (by rw [hid, hxid])
        · exact no_id_removeFromLevels hnda hmem x h2
      · rw [hcancel]
        simp only [BookState.orderCount, bookOrders, List.length_append]
        have := length_allOrders_removeFromLevels hmem
        omega
      · intro sd p hne
        rw [hcancel]
        cases sd with
        | Buy => rfl
        | Sell =>
          have hp : p ≠ o.price := by
            rcases hne with h1 | h1
            · exact absurd rfl h1
            · exact h1
          exact levelOf_removeFromLevels_other s.asks hp
      · rw [hcancel]
        exact levelOf_removeFromLevels_self hna
      · rw [hcancel]
        show hasLevel (removeFromLevels o.price orderId s.asks) o.price = true ↔ _
        rw [hasLevel_removeFromLevels_self hna]
        simp only [Bool.not_eq_true', List.isEmpty_eq_false, ne_eq]
        exact Iff.rfl

/-- The accumulator of `getLevels` computes the queue's remaining-quantity
sum reduced modulo `2^32` (the running sum is truncated to uint32 on every
step, and each step adds less than `2^32`). -/
theorem levelQuantity_foldl (q : List Order) :
    ∀ acc : Nat,
      q.foldl (fun runningSum o => (runningSum + o.remainingQuantity) % 4294967296)
        (acc % 4294967296) = (acc + queueRemaining q) % 4294967296 := by
  induction q with
  | nil => intro acc; simp [queueRemaining]
  | cons o rest ih =>
    intro acc
    simp only [List.foldl_cons]
    rw [Nat.mod_add_mod, ih (acc + o.remainingQuantity), queueRemaining_cons,
      Nat.add_assoc]

theorem levelQuantity_eq (q : List Order) :
    levelQuantity q = queueRemaining q % 4294967296 := by
  have h := levelQuantity_foldl q 0
  rw [Nat.zero_mod] at h
  simpa [levelQuantity] using h

theorem sortedKeysB_chain (lt : Nat → Nat → Bool) :
    ∀ levels : SideLevels, sortedKeysB lt levels = true →
      List.Chain' (fun a b : Nat × List Order => lt a.1 b.1 = true) levels := by
  intro levels
  induction levels with
  | nil => intro _; simp
  | cons a rest ih =>
    intro h
    cases rest with
    | nil => simp
    | cons b bs =>
      simp only [sortedKeysB, Bool.and_eq_true] at h
      rw [List.chain'_cons]
      exact ⟨h.1, ih h.2⟩

/-- C9 (amended): the snapshot holds one entry per resting price level on
each side, in the side's own order (bids by descending price, asks by
ascending price, best first), each entry pairing the level's price with
the sum of the remaining quantities of every order queued there reduced
modulo `2^32` (the aggregate is accumulated in a uint32 and wraps).
`getLevels` is a `const` pure function of the state, so the call changes
nothing. -/
theorem get_levels_snapshot (s : BookState) (hwf : wfB s = true) :
    (s.getLevels).bids =
      s.bids.map (fun lv => ⟨lv.1, queueRemaining lv.2 % 4294967296⟩) ∧
    (s.getLevels).asks =
      s.asks.map (fun lv => ⟨lv.1, queueRemaining lv.2 % 4294967296⟩) ∧
    List.Chain' (fun a b : Level => b.price < a.price) (s.getLevels).bids ∧
    List.Chain' (fun a b : Level => a.price < b.price) (s.getLevels).asks := by
  rw [wfB_iff] at hwf
  have hbids : (s.getLevels).bids =
      s.bids.map (fun lv => ⟨lv.1, queueRemaining lv.2 % 4294967296⟩) := by
    simp only [BookState.getLevels]
    congr 1
    funext lv
    rw [levelQuantity_eq]
  have hasks : (s.getLevels).asks =
      s.asks.map (fun lv => ⟨lv.1, queueRemaining lv.2 % 4294967296⟩) := by
    simp only [BookState.getLevels]
    congr 1
    funext lv
    rw [levelQuantity_eq]
  refine ⟨hbids, hasks, ?_, ?_⟩
  · rw [hbids, List.chain'_map]
    refine (sortedKeysB_chain bidLt s.bids hwf.1).imp ?_
    intro a b hab
    simpa [bidLt] using hab
  · rw [hasks, List.chain'_map]
    refine (sortedKeysB_chain askLt s.asks hwf.2.1).imp ?_
    intro a b hab
    simpa [askLt] using hab

/-- Counterexample to C9 as stated: in `bigBook` (two resting bids of
`2^31` at price 15) the snapshot reports aggregate 0 for the level while
the sum of remaining quantities of the orders queued there is `2^32`: the
uint32 accumulator wraps, so the aggregate equals that sum only modulo
`2^32`. -/
theorem get_levels_overflow_counterexample :
    bigBook.getLevels.bids = [⟨15, 0⟩] ∧
    queueRemaining (levelOf bigBook.bids 15) = 4294967296 := by decide

theorem headFilled_refl (q : List Order) : HeadFilled q q := Or.inl rfl

theorem suffixFilled_refl (q : List Order) : SuffixFilled q q :=
  ⟨[], q, rfl, headFilled_refl q⟩

theorem suffixFilled_nil (q : List Order) : SuffixFilled q [] :=
  ⟨q, [], (List.append_nil q).symm, headFilled_refl []⟩

theorem suffixFilled_trans {q q' q'' : List Order}
    (h1 : SuffixFilled q q') (h2 : SuffixFilled q' q'') :
    SuffixFilled q q'' := by
  obtain ⟨pre1, suf1, hq, hh1⟩ := h1
  obtain ⟨pre2, suf2, hq2, hh2⟩ := h2
  rcases hh1 with h1eq | ⟨o, o', t, hsuf1, hq', hf1, hf2, hf3, hf4, hf5, hle⟩
  · refine ⟨pre1 ++ pre2, suf2, ?_, hh2⟩
    rw [hq, h1eq, hq2, List.append_assoc]
  · cases pre2 with
    | nil =>
      simp only [List.nil_append] at hq2
      rcases hh2 with h2eq | ⟨x, x', t2, hsuf2, hq'', hg1, hg2, hg3, hg4, hg5, hle2⟩
      · refine ⟨pre1, suf1, hq, Or.inr ⟨o, o', t, hsuf1, ?_, hf1, hf2, hf3, hf4, hf5, hle⟩⟩
        rw [← h2eq, ← hq2, hq']
      · have hxe : o' :: t = x :: t2 := by rw [← hq', hq2, hsuf2]
        injection hxe with e1 e2
        subst e2
        refine ⟨pre1, suf1, hq, Or.inr ⟨o, x', t, hsuf1, hq'', ?_, ?_, ?_, ?_, ?_, ?_⟩⟩
        · rw [hg1, ← e1, hf1]
        · rw [hg2, ← e1, hf2]
        · rw [hg3, ← e1, hf3]
        · rw [hg4, ← e1, hf4]
        · rw [hg5, ← e1, hf5]
        · refine le_trans ?_ hle
          rw [← e1] at hle2
          exact hle2
    | cons y pre2' =>
      have hxe : o' :: t = y :: (pre2' ++ suf2) := by
        rw [← hq', hq2, List.cons_append]
      injection hxe with e1 e2
      refine ⟨pre1 ++ o :: pre2', suf2, ?_, hh2⟩
      rw [hq, hsuf1, e2, List.append_assoc, List.cons_append]

/-- Filling the head of a side's best level turns every queue of that side
into a head-only-filled suffix of what it was: the best level's queue
loses its (fully filled) head or has it partially filled, every other
queue is untouched. -/
theorem fillSide_suffixFilled {p0 : Nat} {o : Order} {qTail : List Order}
    {rest : SideLevels} (tq : Nat)
    (hnd : p0 ∉ rest.map Prod.fst) :
    ∀ p : Nat, SuffixFilled (levelOf ((p0, o :: qTail) :: rest) p)
      (levelOf (fillSide p0 o qTail rest tq) p) := by
  intro p
  by_cases hp : p = p0
  · subst hp
    rw [levelOf_cons_self]
    simp only [fillSide]
    split
    · split
      · rw [levelOf_not_mem hnd]
        exact suffixFilled_nil _
      · rw [levelOf_cons_self]
        exact ⟨[o], qTail, rfl, headFilled_refl qTail⟩
    · simp only [List.isEmpty_cons, Bool.false_eq_true, if_false]
      rw [levelOf_cons_self]
      exact ⟨[], o :: qTail, rfl,
        Or.inr ⟨o, _, qTail, rfl, rfl, rfl, rfl, rfl, rfl, rfl, Nat.sub_le _ _⟩⟩
  · have hne : p0 ≠ p := fun hc => hp hc.symm
    rw [levelOf_cons_ne _ rest hne]
    simp only [fillSide]
    split
    · split
      · exact suffixFilled_refl _
      · rw [levelOf_cons_ne _ rest hne]
        exact suffixFilled_refl _
    · simp only [List.isEmpty_cons, Bool.false_eq_true, if_false]
      rw [levelOf_cons_ne _ rest hne]
      exact suffixFilled_refl _

theorem matchStep_suffixFilled {s : BookState} {tr : Trade} {s' : BookState}
    (hwf : wfB s = true) (h : matchStep s = .step tr s') :
    ∀ p : Nat, SuffixFilled (levelOf s.bids p) (levelOf s'.bids p) ∧
      SuffixFilled (levelOf s.asks p) (levelOf s'.asks p) := by
  obtain ⟨bp, bid, bqTail, bidRest, ap, ask, aqTail, askRest, hb, ha, _, _, hs'⟩ :=
    matchStep_step_inv h
  obtain ⟨hnb, hna⟩ := wfB_nodup_keys hwf
  rw [hb] at hnb
  rw [ha] at hna
  simp only [List.map_cons, List.nodup_cons] at hnb hna
  subst hs'
  intro p
  constructor
  · rw [hb]
    exact fillSide_suffixFilled _ hnb.1 p
  · rw [ha]
    exact fillSide_suffixFilled _ hna.1 p

/-- Over a whole run of the matching loop, every queue of either side ends
as a head-only-filled suffix of what it was. -/
theorem matchLoopF_suffixFilled :
    ∀ (fuel : Nat) (s : BookState) (t : List Trade) (s' : BookState),
      wfB s = true → matchLoopF fuel s = some (t, s') →
      ∀ p : Nat, SuffixFilled (levelOf s.bids p) (levelOf s'.bids p) ∧
        SuffixFilled (levelOf s.asks p) (levelOf s'.asks p) := by
  intro fuel
  induction fuel with
  | zero => intro s t s' _ h; cases h
  | succ fuel ih =>
    intro s t s' hwf h
    cases hs : matchStep s with
    | done =>
      simp only [matchLoopF, hs, Option.some.injEq, Prod.mk.injEq] at h
      obtain ⟨rfl, rfl⟩ := h
      exact fun p => ⟨suffixFilled_refl _, suffixFilled_refl _⟩
    | overfill => exact absurd hs (matchStep_ne_overfill s)
    | step tr s1 =>
      simp only [matchLoopF, hs] at h
      cases hm : matchLoopF fuel s1 with
      | none => rw [hm] at h; cases h
      | some r =>
        rcases r with ⟨trs, s2⟩
        rw [hm] at h
        simp only [Option.some.injEq, Prod.mk.injEq] at h
        obtain ⟨rfl, rfl⟩ := h
        intro p
        have h1 := matchStep_suffixFilled hwf hs p
        have h2 := ih s1 trs s2 (matchStep_wf hwf hs) hm p
        exact ⟨suffixFilled_trans h1.1 h2.1, suffixFilled_trans h1.2 h2.2⟩

/-- Filing an order appends it at the tail of its price level's queue. -/
theorem levelOf_insertOrderAt (lt : Nat → Nat → Bool)
    (htrans : ∀ a b c, lt a b = true → lt b c = true → lt a c = true)
    (hirr : ∀ a, lt a a = false) :
    ∀ (levels : SideLevels) (p : Nat) (o : Order),
      sortedKeysB lt levels = true →
      levelOf (insertOrderAt lt p o levels) p = levelOf levels p ++ [o] := by
  intro levels
  induction levels with
  | nil =>
    intro p o _
    simp [insertOrderAt, levelOf, List.find?]
  | cons lv rest ih =>
    intro p o hs
    rcases lv with ⟨k, q⟩
    simp only [insertOrderAt]
    by_cases h1 : lt p k = true
    · rw [if_pos h1, levelOf_cons_self]
      have hpk : k ≠ p := by
        intro hc
        rw [hc, hirr p] at h1
        exact Bool.noConfusion h1
      rw [levelOf_cons_ne q rest hpk]
      have hmem : p ∉ rest.map Prod.fst := by
        intro hmem
        obtain ⟨lv2, hlv2, hk2⟩ := List.mem_map.1 hmem
        have hk2' := sortedKeysB_head_lt lt htrans (k, q) rest hs lv2 hlv2
        rw [hk2] at hk2'
        have := htrans p k p h1 hk2'
        rw [hirr] at this
        exact Bool.noConfusion this
      rw [levelOf_not_mem hmem]
      rfl
    · rw [if_neg h1]
      by_cases h2 : p = k
      · rw [if_pos h2]
        subst h2
        rw [levelOf_cons_self, levelOf_cons_self]
      · rw [if_neg h2]
        have hkp : k ≠ p := fun hc => h2 hc.symm
        rw [levelOf_cons_ne q _ hkp, levelOf_cons_ne q rest hkp]
        exact ih p o (sortedKeysB_tail lt (k, q) rest hs)

/-- C4: price-time priority by construction: submission appends the new
order at the tail of its price level's queue on either side, and the
matching loop only ever fills the queue head: every queue it leaves behind
is a suffix of the old queue whose head may have had its remaining
quantity reduced and whose deeper orders are untouched, so an order
earlier in a queue is always filled, fully or partially, before a later
one at that price receives any fill. -/
theorem price_time_priority :
    (∀ (s : BookState) (p : Nat) (o : Order), wfB s = true →
       levelOf (insertOrderAt bidLt p o s.bids) p = levelOf s.bids p ++ [o] ∧
       levelOf (insertOrderAt askLt p o s.asks) p = levelOf s.asks p ++ [o]) ∧
    (∀ (s : BookState) (t : List Trade) (s' : BookState) (p : Nat),
       wfB s = true → s.matchOrders = (t, s') →
       SuffixFilled (levelOf s.bids p) (levelOf s'.bids p) ∧
       SuffixFilled (levelOf s.asks p) (levelOf s'.asks p)) := by
  constructor
  · intro s p o hwf
    rw [wfB_iff] at hwf
    exact ⟨levelOf_insertOrderAt bidLt bidLt_trans bidLt_irrefl s.bids p o hwf.1,
           levelOf_insertOrderAt askLt askLt_trans askLt_irrefl s.asks p o hwf.2.1⟩
  · intro s t s' p hwf h
    refine matchLoopF_suffixFilled (s.orderCount + 1) s t s' hwf ?_ p
    rw [matchOrders_eq s, h]

/-- Witness for `price_time_priority` at concrete books: appending a
second bid at price 10 of `restingBook`, and the crossed book whose single
bid level is fully consumed by matching. -/
theorem price_time_priority_witness :
    wfB restingBook = true ∧
    levelOf (insertOrderAt bidLt 10 ⟨.GoodTillCanceled, 4, .Buy, 10, 2, 2⟩
        restingBook.bids) 10 =
      levelOf restingBook.bids 10 ++ [⟨.GoodTillCanceled, 4, .Buy, 10, 2, 2⟩] ∧
    wfB crossedBook = true ∧
    crossedBook.matchOrders = ([⟨⟨1, 10, 1⟩, ⟨2, 10, 1⟩⟩], ⟨[], []⟩) ∧
    SuffixFilled (levelOf crossedBook.bids 10)
      (levelOf (⟨[], []⟩ : BookState).bids 10) :=
  ⟨by decide,
   (price_time_priority.1 restingBook 10 ⟨.GoodTillCanceled, 4, .Buy, 10, 2, 2⟩
     (by decide)).1,
   by decide, by decide,
   (price_time_priority.2 crossedBook [⟨⟨1, 10, 1⟩, ⟨2, 10, 1⟩⟩] ⟨[], []⟩ 10
     (by decide) (by decide)).1⟩

/-- Witness for `get_levels_snapshot` at a concrete book. -/
theorem get_levels_snapshot_witness :
    wfB restingBook = true ∧
    ((restingBook.getLevels).bids =
       restingBook.bids.map (fun lv => ⟨lv.1, queueRemaining lv.2 % 4294967296⟩) ∧
     (restingBook.getLevels).asks =
       restingBook.asks.map (fun lv => ⟨lv.1, queueRemaining lv.2 % 4294967296⟩) ∧
     List.Chain' (fun a b : Level => b.price < a.price) (restingBook.getLevels).bids ∧
     List.Chain' (fun a b : Level => a.price < b.price) (restingBook.getLevels).asks) :=
  ⟨by decide, get_levels_snapshot restingBook (by decide)⟩

/-- Forward evaluation of one fill on an explicit crossed shape. -/
theorem matchStep_eq_step (bp ap : Nat) (bid ask : Order)
    (bqTail aqTail : List Order) (bidRest askRest : SideLevels)
    (hlt : ¬ bp < ap) :
    matchStep ⟨(bp, bid :: bqTail) :: bidRest, (ap, ask :: aqTail) :: askRest⟩ =
      .step ⟨⟨bid.orderId, bid.price,
              min bid.remainingQuantity ask.remainingQuantity⟩,
             ⟨ask.orderId, ask.price,
              min bid.remainingQuantity ask.remainingQuantity⟩⟩
        ⟨fillSide bp bid bqTail bidRest
           (min bid.remainingQuantity ask.remainingQuantity),
         fillSide ap ask aqTail askRest
           (min bid.remainingQuantity ask.remainingQuantity)⟩ := by
  have hbf := Order.fill_of_le bid _
    (Nat.min_le_left bid.remainingQuantity ask.remainingQuantity)
  have haf := Order.fill_of_le ask _
    (Nat.min_le_right bid.remainingQuantity ask.remainingQuantity)
  simp only [matchStep, if_neg hlt, hbf, haf]
  rfl

/-- The matching loop begins with the fill its first step performs. -/
theorem matchOrders_head {s : BookState} {tr : Trade} {s1 : BookState}
    (hs : matchStep s = .step tr s1) :
    ∃ rest s', s.matchOrders = (tr :: rest, s') := by
  have hcount := matchStep_count hs
  have hrec := matchLoopF_isSome s.orderCount s1 (by omega)
  unfold BookState.matchOrders
  simp only [matchLoopF, hs]
  cases hm : matchLoopF s.orderCount s1 with
  | none => rw [hm] at hrec; simp at hrec
  | some r =>
    rcases r with ⟨trs, s2⟩
    exact ⟨trs, s2, by simp [hm]⟩

/-- C5: `canMatch` is exactly the stated best-opposite-price test; a
FillAndKill order failing it is rejected without entering the book; and in
a well-formed uncrossed book whose resting orders all have positive
remaining quantity (the spec admits only positive quantities), an admitted
FillAndKill order with positive quantity is filled at least partially
before `submit` returns: the first returned trade carries its id on its
side and a positive quantity. -/
theorem can_match_gates_fill_and_kill :
    (∀ (s : BookState) (price : Nat),
       (s.canMatch .Buy price = true ↔
         ∃ ap aq arest, s.asks = (ap, aq) :: arest ∧ ap ≤ price) ∧
       (s.canMatch .Sell price = true ↔
         ∃ bp bq brest, s.bids = (bp, bq) :: brest ∧ price ≤ bp)) ∧
    (∀ (s : BookState) (o : Order), o.orderType = .FillAndKill →
       s.canMatch o.side o.price = false → s.addTrade o = ([], s)) ∧
    (∀ (s : BookState) (o : Order),
       wfB s = true → uncrossedB s = true → posRemB s = true →
       o.orderType = .FillAndKill → 0 < o.remainingQuantity →
       s.contains o.orderId = false → s.canMatch o.side o.price = true →
       ∃ (tr : Trade) (rest : List Trade), (s.addTrade o).1 = tr :: rest ∧
         0 < tr.bid.quantity ∧ tr.bid.quantity = tr.ask.quantity ∧
         (o.side = .Buy → tr.bid.orderId = o.orderId) ∧
         (o.side = .Sell → tr.ask.orderId = o.orderId)) := by
  refine ⟨?_, fun s o ht hc => addTrade_fak_nomatch ht hc, ?_⟩
  · intro s price
    constructor
    · constructor
      · intro h
        cases hasks : s.asks with
        | nil => simp [BookState.canMatch, hasks] at h
        | cons lv arest =>
          rcases lv with ⟨ap, aq⟩
          simp only [BookState.canMatch, hasks, decide_eq_true_eq, ge_iff_le] at h
          exact ⟨ap, aq, arest, rfl, h⟩
      · rintro ⟨ap, aq, arest, hasks, hle⟩
        simp only [BookState.canMatch, hasks, decide_eq_true_eq, ge_iff_le]
        exact hle
    · constructor
      · intro h
        cases hbids : s.bids with
        | nil => simp [BookState.canMatch, hbids] at h
        | cons lv brest =>
          rcases lv with ⟨bp, bq⟩
          simp only [BookState.canMatch, hbids, decide_eq_true_eq] at h
          exact ⟨bp, bq, brest, rfl, h⟩
      · rintro ⟨bp, bq, brest, hbids, hle⟩
        simp only [BookState.canMatch, hbids, decide_eq_true_eq]
        exact hle
  · intro s o hwf hunc hpos htype hq hcon hcm
    have hwf' := (wfB_iff s).1 hwf
    simp only [posRemB, List.all_eq_true, decide_eq_true_eq] at hpos
    cases hsd : o.side with
    | Buy =>
      rw [hsd] at hcm
      cases hasks : s.asks with
      | nil => simp [BookState.canMatch, hasks] at hcm
      | cons alv arest =>
        rcases alv with ⟨ap, aq⟩
        have hap : ap ≤ o.price := by
          have hx := hcm
          simp only [BookState.canMatch, hasks, decide_eq_true_eq, ge_iff_le] at hx
          exact hx
        have haqne : aq ≠ [] := hwf'.2.2.2 (ap, aq) (by rw [hasks]; exact List.mem_cons_self _ _)
        rcases haq : aq with _ | ⟨ask, aqTail⟩
        · exact absurd haq haqne
        have hins : insertOrderAt bidLt o.price o s.bids = (o.price, [o]) :: s.bids := by
          cases hbids : s.bids with
          | nil => rfl
          | cons blv brest =>
            rcases blv with ⟨bp, bq⟩
            have hbp : bp < ap := by
              simp only [uncrossedB, hbids, hasks, decide_eq_true_eq] at hunc
              exact hunc
            have hblt : bidLt o.price bp = true := by
              simp only [bidLt, decide_eq_true_eq]
              omega
            simp [insertOrderAt, hblt]
        have haddTrade : s.addTrade o =
            BookState.matchOrders ⟨(o.price, [o]) :: s.bids,
              (ap, ask :: aqTail) :: arest⟩ := by
          unfold BookState.addTrade
          rw [if_neg (by rw [hcon]; exact Bool.noConfusion),
            if_neg (fun hand => by rw [hsd, hcm] at hand; exact Bool.noConfusion hand.2)]
          rw [hsd]
          simp only
          rw [hins, ← haq, ← hasks]
        have hstep := matchStep_eq_step o.price ap o ask [] aqTail s.bids arest
          (by omega)
        obtain ⟨rest, s', hmo⟩ := matchOrders_head hstep
        have haskpos : 0 < ask.remainingQuantity := by
          refine hpos ask (List.mem_append.2 (Or.inr ?_))
          refine mem_allOrders.2 ⟨(ap, aq), by rw [hasks]; exact List.mem_cons_self _ _, ?_⟩
          rw [haq]
          exact List.mem_cons_self _ _
        refine ⟨⟨⟨o.orderId, o.price, min o.remainingQuantity ask.remainingQuantity⟩,
                 ⟨ask.orderId, ask.price, min o.remainingQuantity ask.remainingQuantity⟩⟩,
          rest, ?_, ?_, rfl, fun _ => rfl, fun hc => ?_⟩
        · rw [haddTrade, hmo]
        · exact Nat.lt_min.2 ⟨hq, haskpos⟩
        · exact Side.noConfusion hc
    | Sell =>
      rw [hsd] at hcm
      cases hbids : s.bids with
      | nil => simp [BookState.canMatch, hbids] at hcm
      | cons blv brest =>
        rcases blv with ⟨bp, bq⟩
        have hbp' : o.price ≤ bp := by
          have hx := hcm
          simp only [BookState.canMatch, hbids, decide_eq_true_eq] at hx
          exact hx
        have hbqne : bq ≠ [] := hwf'.2.2.1 (bp, bq) (by rw [hbids]; exact List.mem_cons_self _ _)
        rcases hbq : bq with _ | ⟨bid, bqTail⟩
        · exact absurd hbq hbqne
        have hins : insertOrderAt askLt o.price o s.asks = (o.price, [o]) :: s.asks := by
          cases hasks : s.asks with
          | nil => rfl
          | cons alv arest =>
            rcases alv with ⟨ap, aq⟩
            have hap : bp < ap := by
              simp only [uncrossedB, hbids, hasks, decide_eq_true_eq] at hunc
              exact hunc
            have halt : askLt o.price ap = true := by
              simp only [askLt, decide_eq_true_eq]
              omega
            simp [insertOrderAt, halt]
        have haddTrade : s.addTrade o =
            BookState.matchOrders ⟨(bp, bid :: bqTail) :: brest,
              (o.price, [o]) :: s.asks⟩ := by
          unfold BookState.addTrade
          rw [if_neg (by rw [hcon]; exact Bool.noConfusion),
            if_neg (fun hand => by rw [hsd, hcm] at hand; exact Bool.noConfusion hand.2)]
          rw [hsd]
          simp only
          rw [hins, ← hbq, ← hbids]
        have hstep := matchStep_eq_step bp o.price bid o bqTail [] brest s.asks
          (by omega)
        obtain ⟨rest, s', hmo⟩ := matchOrders_head hstep
        have hbidpos : 0 < bid.remainingQuantity := by
          refine hpos bid (List.mem_append.2 (Or.inl ?_))
          refine mem_allOrders.2 ⟨(bp, bq), by rw [hbids]; exact List.mem_cons_self _ _, ?_⟩
          rw [hbq]
          exact List.mem_cons_self _ _
        refine ⟨⟨⟨bid.orderId, bid.price, min bid.remainingQuantity o.remainingQuantity⟩,
                 ⟨o.orderId, o.price, min bid.remainingQuantity o.remainingQuantity⟩⟩,
          rest, ?_, ?_, rfl, fun hc => ?_, fun _ => rfl⟩
        · rw [haddTrade, hmo]
        · exact Nat.lt_min.2 ⟨hbidpos, hq⟩
        · exact Side.noConfusion hc

theorem sortedKeysB_cons (lt : Nat → Nat → Bool) (a : Nat × List Order)
    (X : SideLevels) (hhead : ∀ lv ∈ X, lt a.1 lv.1 = true)
    (hX : sortedKeysB lt X = true) : sortedKeysB lt (a :: X) = true := by
  cases X with
  | nil => rfl
  | cons b bs =>
    simp only [sortedKeysB, Bool.and_eq_true]
    exact ⟨hhead b (List.mem_cons_self _ _), hX⟩

theorem keys_removeFromLevels_sub {p id : Nat} :
    ∀ {levels : SideLevels} {k : Nat},
      k ∈ (removeFromLevels p id levels).map Prod.fst →
      k ∈ levels.map Prod.fst := by
  intro levels
  induction levels with
  | nil => intro k hk; cases hk
  | cons lv rest ih =>
    intro k hk
    rcases lv with ⟨k0, q⟩
    by_cases h0 : k0 = p
    · subst h0
      rw [removeFromLevels_cons_eq] at hk
      split at hk
      · exact List.mem_cons_of_mem _ hk
      · simp only [List.map_cons, List.mem_cons] at hk ⊢
        exact hk
    · rw [removeFromLevels_cons_ne id q rest h0] at hk
      simp only [List.map_cons, List.mem_cons] at hk ⊢
      rcases hk with hk | hk
      · exact Or.inl hk
      · exact Or.inr (ih hk)

theorem sortedKeysB_removeFromLevels (lt : Nat → Nat → Bool)
    (htrans : ∀ a b c, lt a b = true → lt b c = true → lt a c = true)
    (p id : Nat) :
    ∀ levels : SideLevels, sortedKeysB lt levels = true →
      sortedKeysB lt (removeFromLevels p id levels) = true := by
  intro levels
  induction levels with
  | nil => intro _; rfl
  | cons lv rest ih =>
    intro hs
    rcases lv with ⟨k, q⟩
    have htl := sortedKeysB_tail lt (k, q) rest hs
    by_cases h0 : k = p
    · subst h0
      rw [removeFromLevels_cons_eq]
      split
      · exact htl
      · rw [← sortedKeysB_queue_irrelevant lt k q]
        exact hs
    · rw [removeFromLevels_cons_ne id q rest h0]
      refine sortedKeysB_cons lt (k, q) _ ?_ (ih htl)
      intro lv2 hlv2
      have hkey : lv2.1 ∈ rest.map Prod.fst :=
        keys_removeFromLevels_sub (List.mem_map.2 ⟨lv2, hlv2, rfl⟩)
      obtain ⟨lv3, hlv3, hk3⟩ := List.mem_map.1 hkey
      have := sortedKeysB_head_lt lt htrans (k, q) rest hs lv3 hlv3
      rw [hk3] at this
      exact this

theorem queues_removeFromLevels (p id : Nat) :
    ∀ levels : SideLevels, (∀ lv ∈ levels, lv.2 ≠ []) →
      ∀ lv ∈ removeFromLevels p id levels, lv.2 ≠ [] := by
  intro levels
  induction levels with
  | nil => intro _ lv hlv; cases hlv
  | cons lv0 rest ih =>
    intro hq lv hlv
    rcases lv0 with ⟨k, q⟩
    have hqr : ∀ lv ∈ rest, lv.2 ≠ [] :=
      fun lv2 hlv2 => hq lv2 (List.mem_cons_of_mem _ hlv2)
    by_cases h0 : k = p
    · subst h0
      rw [removeFromLevels_cons_eq] at hlv
      split at hlv
      · exact hqr lv hlv
      · rename_i hemp
        rcases List.mem_cons.1 hlv with rfl | hlv2
        · intro hc
          change eraseOrder id q = [] at hc
          rw [hc] at hemp
          simp at hemp
        · exact hqr lv hlv2
    · rw [removeFromLevels_cons_ne id q rest h0] at hlv
      rcases List.mem_cons.1 hlv with rfl | hlv2
      · exact hq (k, q) (List.mem_cons_self _ _)
      · exact ih hqr lv hlv2

/-- Cancellation preserves the book's structural invariants. -/
theorem wfB_cancelOrder {s : BookState} (hwf : wfB s = true) (orderId : Nat) :
    wfB (s.cancelOrder orderId) = true := by
  rw [wfB_iff] at hwf
  cases h : s.findOrder orderId with
  | none => simp [BookState.cancelOrder, h]; rw [← wfB_iff] at hwf; exact hwf
  | some o =>
    cases hsd : o.side with
    | Buy =>
      have : s.cancelOrder orderId =
          ⟨removeFromLevels o.price orderId s.bids, s.asks⟩ := by
        simp [BookState.cancelOrder, h, hsd]
      rw [this, wfB_iff]
      exact ⟨sortedKeysB_removeFromLevels bidLt bidLt_trans _ _ s.bids hwf.1,
        hwf.2.1,
        queues_removeFromLevels _ _ s.bids hwf.2.2.1,
        hwf.2.2.2⟩
    | Sell =>
      have : s.cancelOrder orderId =
          ⟨s.bids, removeFromLevels o.price orderId s.asks⟩ := by
        simp [BookState.cancelOrder, h, hsd]
      rw [this, wfB_iff]
      exact ⟨hwf.1,
        sortedKeysB_removeFromLevels askLt askLt_trans _ _ s.asks hwf.2.1,
        hwf.2.2.1,
        queues_removeFromLevels _ _ s.asks hwf.2.2.2⟩

/-- After a successful cancel, no order in the book carries the id. -/
theorem cancelOrder_no_id {s : BookState} {orderId : Nat} {o : Order}
    (hwf : wfB s = true) (huid : UniqueIds s) (hloc : Located s)
    (h : s.findOrder orderId = some o) :
    ∀ x ∈ bookOrders (s.cancelOrder orderId), x.orderId ≠ orderId := by
  obtain ⟨hoin, _⟩ := findOrder_located hwf hloc h
  obtain ⟨_, hid⟩ := findOrder_some h
  have hndAll : ((allOrders s.bids ++ allOrders s.asks).map Order.orderId).Nodup :=
    huid
  cases hsd : o.side with
  | Buy =>
    rw [hsd] at hoin
    have hcancel : s.cancelOrder orderId =
        ⟨removeFromLevels o.price orderId s.bids, s.asks⟩ := by
      simp [BookState.cancelOrder, h, hsd]
    have hmem : ∃ x ∈ levelOf s.bids o.price, x.orderId = orderId := ⟨o, hoin, hid⟩
    have hndb : ((allOrders s.bids).map Order.orderId).Nodup := by
      rw [List.map_append] at hndAll
      exact (List.nodup_append.1 hndAll).1
    rw [hcancel]
    intro x hx
    rcases List.mem_append.1 hx with h1 | h2
    · exact no_id_removeFromLevels hndb hmem x h1
    · intro hxid
      exact nodup_map_append_disjoint hndAll (mem_levelOf hoin) h2 (by rw [hid, hxid])
  | Sell =>
    rw [hsd] at hoin
    have hcancel : s.cancelOrder orderId =
        ⟨s.bids, removeFromLevels o.price orderId s.asks⟩ := by
      simp [BookState.cancelOrder, h, hsd]
    have hmem : ∃ x ∈ levelOf s.asks o.price, x.orderId = orderId := ⟨o, hoin, hid⟩
    have hnda : ((allOrders s.asks).map Order.orderId).Nodup := by
      rw [List.map_append] at hndAll
      exact (List.nodup_append.1 hndAll).2.1
    rw [hcancel]
    intro x hx
    rcases List.mem_append.1 hx with h1 | h2
    · intro hxid
      exact nodup_map_append_disjoint hndAll h1 (mem_levelOf hoin) (by rw [hxid, hid])
    · exact no_id_removeFromLevels hnda hmem x h2

theorem keys_insertOrderAt (lt : Nat → Nat → Bool) (p : Nat) (o : Order) :
    ∀ (levels : SideLevels) (k : Nat),
      k ∈ (insertOrderAt lt p o levels).map Prod.fst →
      k = p ∨ k ∈ levels.map Prod.fst := by
  intro levels
  induction levels with
  | nil =>
    intro k hk
    simp only [insertOrderAt, List.map_cons, List.map_nil, List.mem_cons] at hk
    rcases hk with hk | hk
    · exact Or.inl hk
    · cases hk
  | cons lv rest ih =>
    intro k hk
    rcases lv with ⟨k0, q⟩
    simp only [insertOrderAt] at hk
    by_cases h1 : lt p k0 = true
    · rw [if_pos h1] at hk
      simp only [List.map_cons, List.mem_cons] at hk ⊢
      rcases hk with hk | hk | hk
      · exact Or.inl hk
      · exact Or.inr (Or.inl hk)
      · exact Or.inr (Or.inr hk)
    · rw [if_neg h1] at hk
      by_cases h2 : p = k0
      · rw [if_pos h2] at hk
        simp only [List.map_cons, List.mem_cons] at hk ⊢
        exact Or.inr hk
      · rw [if_neg h2] at hk
        simp only [List.map_cons, List.mem_cons] at hk ⊢
        rcases hk with hk | hk
        · exact Or.inr (Or.inl hk)
        · exact (ih k hk).imp_right Or.inr

theorem sortedKeysB_insertOrderAt (lt : Nat → Nat → Bool)
    (htrans : ∀ a b c, lt a b = true → lt b c = true → lt a c = true)
    (htot : ∀ a b, lt a b = false → a ≠ b → lt b a = true) :
    ∀ (levels : SideLevels) (p : Nat) (o : Order),
      sortedKeysB lt levels = true →
      sortedKeysB lt (insertOrderAt lt p o levels) = true := by
  intro levels
  induction levels with
  | nil => intro p o _; rfl
  | cons lv rest ih =>
    intro p o hs
    rcases lv with ⟨k, q⟩
    have htl := sortedKeysB_tail lt (k, q) rest hs
    simp only [insertOrderAt]
    by_cases h1 : lt p k = true
    · rw [if_pos h1]
      refine sortedKeysB_cons lt (p, [o]) _ ?_ hs
      intro lv2 hlv2
      rcases List.mem_cons.1 hlv2 with rfl | hlv3
      · exact h1
      · exact htrans p k lv2.1 h1
          (sortedKeysB_head_lt lt htrans (k, q) rest hs lv2 hlv3)
    · rw [if_neg h1]
      by_cases h2 : p = k
      · rw [if_pos h2]
        rw [← sortedKeysB_queue_irrelevant lt k q]
        exact hs
      · rw [if_neg h2]
        refine sortedKeysB_cons lt (k, q) _ ?_ (ih p o htl)
        intro lv2 hlv2
        rcases keys_insertOrderAt lt p o rest lv2.1
          (List.mem_map.2 ⟨lv2, hlv2, rfl⟩) with hkey | hkey
        · rw [hkey]
          exact htot p k (by simpa using h1) h2
        · obtain ⟨lv3, hlv3, hk3⟩ := List.mem_map.1 hkey
          rw [← hk3]
          exact sortedKeysB_head_lt lt htrans (k, q) rest hs lv3 hlv3

theorem queues_insertOrderAt (lt : Nat → Nat → Bool) (p : Nat) (o : Order) :
    ∀ levels : SideLevels, (∀ lv ∈ levels, lv.2 ≠ []) →
      ∀ lv ∈ insertOrderAt lt p o levels, lv.2 ≠ [] := by
  intro levels
  induction levels with
  | nil =>
    intro _ lv hlv
    simp only [insertOrderAt, List.mem_cons] at hlv
    rcases hlv with rfl | hlv
    · simp
    · cases hlv
  | cons lv0 rest ih =>
    intro hq lv hlv
    rcases lv0 with ⟨k, q⟩
    have hqr : ∀ lv2 ∈ rest, lv2.2 ≠ [] :=
      fun lv2 hlv2 => hq lv2 (List.mem_cons_of_mem _ hlv2)
    simp only [insertOrderAt] at hlv
    by_cases h1 : lt p k = true
    · rw [if_pos h1] at hlv
      rcases List.mem_cons.1 hlv with rfl | hlv2
      · simp
      · exact hq lv hlv2
    · rw [if_neg h1] at hlv
      by_cases h2 : p = k
      · rw [if_pos h2] at hlv
        rcases List.mem_cons.1 hlv with rfl | hlv2
        · simp
        · exact hqr lv hlv2
      · rw [if_neg h2] at hlv
        rcases List.mem_cons.1 hlv with rfl | hlv2
        · exact hq (k, q) (List.mem_cons_self _ _)
        · exact ih hqr lv hlv2

theorem mem_levelOf_bookOrders {s : BookState} {sd : Side} {p : Nat} {x : Order}
    (hx : x ∈ levelOf (s.sideOf sd) p) : x ∈ bookOrders s := by
  cases sd
  · exact List.mem_append.2 (Or.inl (mem_levelOf hx))
  · exact List.mem_append.2 (Or.inr (mem_levelOf hx))

/-- In a queue built as "orders without the id, then the freshly appended
holder of the id", any order carrying the id that survives a run of the
matching loop is the last order of its queue. -/
theorem suffixFilled_last_id {q : List Order} {fresh : Order}
    {q' : List Order} {idv : Nat}
    (hsf : SuffixFilled (q ++ [fresh]) q')
    (hqid : ∀ x ∈ q, x.orderId ≠ idv) (hfid : fresh.orderId = idv) :
    ∀ o' ∈ q', o'.orderId = idv → q'.getLast? = some o' := by
  obtain ⟨pre, suf, happ, hh⟩ := hsf
  have hsub : ∀ x ∈ suf, x ∈ q ++ [fresh] := by
    intro x hx
    rw [happ]
    exact List.mem_append.2 (Or.inr hx)
  have hval : ∀ x ∈ suf, x.orderId = idv → x = fresh := by
    intro x hx hxid
    rcases List.mem_append.1 (hsub x hx) with h1 | h2
    · exact absurd hxid (hqid x h1)
    · simpa using h2
  have hlast : suf ≠ [] → suf.getLast? = some fresh := by
    intro hne
    have hg := List.getLast?_append_of_ne_nil pre hne
    rw [← happ, List.getLast?_append_cons q fresh []] at hg
    exact hg.symm
  have hcount : (q ++ [fresh]).countP (fun x => x.orderId == idv) = 1 := by
    rw [List.countP_append]
    have h0 : q.countP (fun x => x.orderId == idv) = 0 := by
      rw [List.countP_eq_zero]
      intro x hx
      simpa using hqid x hx
    rw [h0]
    simp [List.countP_cons, hfid]
  rcases hh with heq | ⟨h, h', t, hsuf, hq', hg1, hg2, hg3, hg4, hg5, hle⟩
  · subst heq
    intro o' ho' hoid
    have hof : o' = fresh := hval o' ho' hoid
    subst hof
    exact hlast (List.ne_nil_of_mem ho')
  · subst hsuf
    subst hq'
    have htlast : t ≠ [] → t.getLast? = some fresh := by
      intro hne
      have hT : q ++ [fresh] = (pre ++ [h]) ++ t := by
        rw [happ, List.append_assoc, List.singleton_append]
      have hg := List.getLast?_append_of_ne_nil (pre ++ [h]) hne
      rw [← hT, List.getLast?_append_cons q fresh []] at hg
      rw [← hg]
      simp
    intro o' ho' hoid
    rcases List.mem_cons.1 ho' with rfl | hot
    · -- the surviving (possibly reduced) head itself carries the id
      have hhid : h.orderId = idv := by rw [← hg2]; exact hoid
      have ht : t = [] := by
        by_contra hne
        have hgl := htlast hne
        have hfin : fresh ∈ t := by
          have hdrop := List.dropLast_append_getLast? fresh (l := t) (by rw [hgl]; rfl)
          rw [← hdrop]
          exact List.mem_append.2 (Or.inr (List.mem_cons_self _ _))
        have hpos : 0 < t.countP (fun x => x.orderId == idv) :=
          List.countP_pos_iff.2 ⟨fresh, hfin, by simp [hfid]⟩
        have hcz : t.countP (fun x => x.orderId == idv) = 0 := by
          rw [happ, List.countP_append, List.countP_cons] at hcount
          simp [hhid] at hcount
          omega
        omega
      subst ht
      rfl
    · -- the id sits deeper in the queue: it is the appended fresh order
      have hof : o' = fresh := hval o' (List.mem_cons_of_mem _ hot) hoid
      have hne : t ≠ [] := List.ne_nil_of_mem hot
      have hgl := htlast hne
      have hcons : (h' :: t).getLast? = t.getLast? := by
        have := List.getLast?_append_of_ne_nil [h'] hne
        rwa [List.singleton_append] at this
      rw [hcons, hgl, hof]

theorem bidLt_tot (a b : Nat) (h1 : bidLt a b = false) (h2 : a ≠ b) :
    bidLt b a = true := by
  simp only [bidLt, decide_eq_false_iff_not, decide_eq_true_eq] at h1 ⊢
  omega

theorem askLt_tot (a b : Nat) (h1 : askLt a b = false) (h2 : a ≠ b) :
    askLt b a = true := by
  simp only [askLt, decide_eq_false_iff_not, decide_eq_true_eq] at h1 ⊢
  omega

/-- C6: for a live target id, modify is exactly an atomic cancel of the
existing order followed by a fresh submit of the modification's price,
side and quantity under the original order's time-in-force kind; and
under the book invariants, if the modified order rests after the call it
sits at the tail of its (possibly new) price level's queue. -/
theorem modify_is_cancel_then_resubmit :
    (∀ (s : BookState) (m : ModOrder) (o : Order),
       s.findOrder m.orderId = some o →
       s.modifyOrder m = modifyByCancelAndResubmit s m o.orderType) ∧
    (∀ (s : BookState) (m : ModOrder) (o : Order),
       wfB s = true → UniqueIds s → Located s →
       s.findOrder m.orderId = some o →
       ∀ o' ∈ levelOf ((s.modifyOrder m).2.sideOf m.side) m.price,
         o'.orderId = m.orderId →
         (levelOf ((s.modifyOrder m).2.sideOf m.side) m.price).getLast? =
           some o') := by
  have hmodeq : ∀ (s : BookState) (m : ModOrder) (o : Order),
      s.findOrder m.orderId = some o →
      s.modifyOrder m = modifyByCancelAndResubmit s m o.orderType := by
    intro s m o h
    simp [BookState.modifyOrder, modifyByCancelAndResubmit, h]
  refine ⟨hmodeq, ?_⟩
  intro s m o hwf huid hloc h
  rw [hmodeq s m o h]
  unfold modifyByCancelAndResubmit
  have hwf1 : wfB (s.cancelOrder m.orderId) = true := wfB_cancelOrder hwf m.orderId
  have hnone : ∀ x ∈ bookOrders (s.cancelOrder m.orderId),
      x.orderId ≠ m.orderId := cancelOrder_no_id hwf huid hloc h
  have hfid : (m.makeOrderPointer o.orderType).orderId = m.orderId := rfl
  have hcon1 : (s.cancelOrder m.orderId).contains m.orderId = false := by
    have hx : (s.cancelOrder m.orderId).findOrder m.orderId = none :=
      findOrder_eq_none_iff.2 hnone
    simp [BookState.contains, hx]
  by_cases hfak : (m.makeOrderPointer o.orderType).orderType = .FillAndKill ∧
      (s.cancelOrder m.orderId).canMatch (m.makeOrderPointer o.orderType).side
        (m.makeOrderPointer o.orderType).price = false
  · rw [addTrade_fak_nomatch hfak.1 hfak.2]
    intro o' ho' hoid
    exact absurd hoid (hnone o' (mem_levelOf_bookOrders ho'))
  · have haddsplit : (s.cancelOrder m.orderId).addTrade (m.makeOrderPointer o.orderType) =
        BookState.matchOrders
          (match (m.makeOrderPointer o.orderType).side with
           | .Buy => ⟨insertOrderAt bidLt (m.makeOrderPointer o.orderType).price
                        (m.makeOrderPointer o.orderType) (s.cancelOrder m.orderId).bids,
                      (s.cancelOrder m.orderId).asks⟩
           | .Sell => ⟨(s.cancelOrder m.orderId).bids,
                       insertOrderAt askLt (m.makeOrderPointer o.orderType).price
                         (m.makeOrderPointer o.orderType) (s.cancelOrder m.orderId).asks⟩) := by
      unfold BookState.addTrade
      rw [if_neg (by rw [hfid, hcon1]; exact fun hc => Bool.noConfusion hc),
        if_neg hfak]
    rw [haddsplit]
    obtain ⟨w1, w2, w3, w4⟩ := (wfB_iff (s.cancelOrder m.orderId)).1 hwf1
    cases hside : m.side with
    | Buy =>
      have hfs : (m.makeOrderPointer o.orderType).side = Side.Buy := hside
      rw [hfs]
      simp only
      have hq0 : levelOf (insertOrderAt bidLt (m.makeOrderPointer o.orderType).price
            (m.makeOrderPointer o.orderType) (s.cancelOrder m.orderId).bids)
            (m.makeOrderPointer o.orderType).price =
          levelOf (s.cancelOrder m.orderId).bids
            (m.makeOrderPointer o.orderType).price ++ [m.makeOrderPointer o.orderType] :=
        levelOf_insertOrderAt bidLt bidLt_trans bidLt_irrefl _ _ _ w1
      have hwf1' : wfB ⟨insertOrderAt bidLt (m.makeOrderPointer o.orderType).price
            (m.makeOrderPointer o.orderType) (s.cancelOrder m.orderId).bids,
            (s.cancelOrder m.orderId).asks⟩ = true := by
        rw [wfB_iff]
        exact ⟨sortedKeysB_insertOrderAt bidLt bidLt_trans bidLt_tot _ _ _ w1, w2,
               queues_insertOrderAt bidLt _ _ _ w3, w4⟩
      rcases hmo : BookState.matchOrders ⟨insertOrderAt bidLt
          (m.makeOrderPointer o.orderType).price (m.makeOrderPointer o.orderType)
          (s.cancelOrder m.orderId).bids, (s.cancelOrder m.orderId).asks⟩ with ⟨t2, s2⟩
      have hsf := (matchLoopF_suffixFilled _ _ t2 s2 hwf1'
        (by rw [matchOrders_eq, hmo]) (m.makeOrderPointer o.orderType).price).1
      rw [hq0] at hsf
      have hqid : ∀ x ∈ levelOf (s.cancelOrder m.orderId).bids
          (m.makeOrderPointer o.orderType).price, x.orderId ≠ m.orderId := by
        intro x hx
        exact hnone x (List.mem_append.2 (Or.inl (mem_levelOf hx)))
      intro o' ho' hoid
      exact suffixFilled_last_id hsf hqid hfid o' ho' hoid
    | Sell =>
      have hfs : (m.makeOrderPointer o.orderType).side = Side.Sell := hside
      rw [hfs]
      simp only
      have hq0 : levelOf (insertOrderAt askLt (m.makeOrderPointer o.orderType).price
            (m.makeOrderPointer o.orderType) (s.cancelOrder m.orderId).asks)
            (m.makeOrderPointer o.orderType).price =
          levelOf (s.cancelOrder m.orderId).asks
            (m.makeOrderPointer o.orderType).price ++ [m.makeOrderPointer o.orderType] :=
        levelOf_insertOrderAt askLt askLt_trans askLt_irrefl _ _ _ w2
      have hwf1' : wfB ⟨(s.cancelOrder m.orderId).bids,
            insertOrderAt askLt (m.makeOrderPointer o.orderType).price
              (m.makeOrderPointer o.orderType) (s.cancelOrder m.orderId).asks⟩ = true := by
        rw [wfB_iff]
        exact ⟨w1, sortedKeysB_insertOrderAt askLt askLt_trans askLt_tot _ _ _ w2,
               w3, queues_insertOrderAt askLt _ _ _ w4⟩
      rcases hmo : BookState.matchOrders ⟨(s.cancelOrder m.orderId).bids,
          insertOrderAt askLt (m.makeOrderPointer o.orderType).price
            (m.makeOrderPointer o.orderType) (s.cancelOrder m.orderId).asks⟩ with ⟨t2, s2⟩
      have hsf := (matchLoopF_suffixFilled _ _ t2 s2 hwf1'
        (by rw [matchOrders_eq, hmo]) (m.makeOrderPointer o.orderType).price).2
      rw [hq0] at hsf
      have hqid : ∀ x ∈ levelOf (s.cancelOrder m.orderId).asks
          (m.makeOrderPointer o.orderType).price, x.orderId ≠ m.orderId := by
        intro x hx
        exact hnone x (List.mem_append.2 (Or.inr (mem_levelOf hx)))
      intro o' ho' hoid
      exact suffixFilled_last_id hsf hqid hfid o' ho' hoid

/-- Witness for `modify_is_cancel_then_resubmit` at a concrete book:
moving resting bid 1 of `restingBook` from price 10 to price 11 with
quantity 5. -/
theorem modify_is_cancel_then_resubmit_witness :
    restingBook.findOrder 1 = some oBid1 ∧
    restingBook.modifyOrder ⟨1, 11, .Buy, 5⟩ =
      modifyByCancelAndResubmit restingBook ⟨1, 11, .Buy, 5⟩ oBid1.orderType ∧
    (wfB restingBook = true ∧ UniqueIds restingBook ∧ Located restingBook) ∧
    (∀ o' ∈ levelOf ((restingBook.modifyOrder ⟨1, 11, .Buy, 5⟩).2.sideOf
        (⟨1, 11, .Buy, 5⟩ : ModOrder).side) (⟨1, 11, .Buy, 5⟩ : ModOrder).price,
      o'.orderId = (⟨1, 11, .Buy, 5⟩ : ModOrder).orderId →
      (levelOf ((restingBook.modifyOrder ⟨1, 11, .Buy, 5⟩).2.sideOf
          (⟨1, 11, .Buy, 5⟩ : ModOrder).side)
          (⟨1, 11, .Buy, 5⟩ : ModOrder).price).getLast? = some o') :=
  ⟨by decide,
   modify_is_cancel_then_resubmit.1 restingBook ⟨1, 11, .Buy, 5⟩ oBid1 (by decide),
   ⟨by decide, by decide, by decide⟩,
   modify_is_cancel_then_resubmit.2 restingBook ⟨1, 11, .Buy, 5⟩ oBid1
     (by decide) (by decide) (by decide) (by decide)⟩

/-- Witness for `can_match_gates_fill_and_kill` at concrete inputs: the
`canMatch` characterization on `restingBook`, the rejected FillAndKill buy
below the ask, and an admitted FillAndKill buy at the ask that trades. -/
theorem can_match_gates_fill_and_kill_witness :
    ((restingBook.canMatch .Buy 12 = true ↔
       ∃ ap aq arest, restingBook.asks = (ap, aq) :: arest ∧ ap ≤ 12) ∧
     (restingBook.canMatch .Sell 12 = true ↔
       ∃ bp bq brest, restingBook.bids = (bp, bq) :: brest ∧ 12 ≤ bp)) ∧
    restingBook.addTrade ⟨.FillAndKill, 9, .Buy, 11, 3, 3⟩ = ([], restingBook) ∧
    (wfB restingBook = true ∧ uncrossedB restingBook = true ∧
     posRemB restingBook = true ∧ restingBook.contains 9 = false ∧
     restingBook.canMatch .Buy 12 = true) ∧
    (∃ (tr : Trade) (rest : List Trade),
      (restingBook.addTrade ⟨.FillAndKill, 9, .Buy, 12, 3, 3⟩).1 = tr :: rest ∧
      0 < tr.bid.quantity ∧ tr.bid.quantity = tr.ask.quantity ∧
      ((⟨.FillAndKill, 9, .Buy, 12, 3, 3⟩ : Order).side = .Buy →
        tr.bid.orderId = 9) ∧
      ((⟨.FillAndKill, 9, .Buy, 12, 3, 3⟩ : Order).side = .Sell →
        tr.ask.orderId = 9)) :=
  ⟨can_match_gates_fill_and_kill.1 restingBook 12,
   can_match_gates_fill_and_kill.2.1 restingBook ⟨.FillAndKill, 9, .Buy, 11, 3, 3⟩
     rfl (by decide),
   ⟨by decide, by decide, by decide, by decide, by decide⟩,
   can_match_gates_fill_and_kill.2.2 restingBook ⟨.FillAndKill, 9, .Buy, 12, 3, 3⟩
     (by decide) (by decide) (by decide) rfl (by decide) (by decide) (by decide)⟩

/-- Witness for `cancel_order_semantics` at a concrete book: canceling the
resting bid with id 1 of `restingBook`. -/
theorem cancel_order_semantics_witness :
    wfB restingBook = true ∧ UniqueIds restingBook ∧ Located restingBook ∧
    restingBook.findOrder 1 = some oBid1 ∧
    ((restingBook.cancelOrder 1).findOrder 1 = none ∧
     (restingBook.cancelOrder 1).orderCount + 1 = restingBook.orderCount ∧
     (∀ (sd : Side) (p : Nat), sd ≠ oBid1.side ∨ p ≠ oBid1.price →
        levelOf ((restingBook.cancelOrder 1).sideOf sd) p =
          levelOf (restingBook.sideOf sd) p) ∧
     levelOf ((restingBook.cancelOrder 1).sideOf oBid1.side) oBid1.price =
       eraseOrder 1 (levelOf (restingBook.sideOf oBid1.side) oBid1.price) ∧
     (hasLevel ((restingBook.cancelOrder 1).sideOf oBid1.side) oBid1.price = true ↔
        eraseOrder 1 (levelOf (restingBook.sideOf oBid1.side) oBid1.price) ≠ [])) :=
  ⟨by decide, by decide, by decide, by decide,
   cancel_order_semantics.2 restingBook 1 oBid1 (by decide) (by decide)
     (by decide) (by decide)⟩

end Orderbook
